import Mathlib

/-!
Verification of the hybrid retrieval + query cache subsystem
(`core/cache/manager.py` and `core/retrieval/hybrid_retriever.py`).

Modelling conventions:
* Python floats (similarity scores, retrieval weights, timestamps) enter the
  code only through ring operations (`+`, `-`, `*`) and order comparisons, so
  they are modelled by an arbitrary linearly ordered commutative ring `α`;
  concrete evaluations instantiate `α := ℤ`.
* `time.time()` is passed in explicitly as a `now : α` argument to every
  operation that reads the clock.
* Python's `OrderedDict` (and plain `dict`, whose iteration order is insertion
  order) is modelled as an association list ordered from least recently used
  (front) to most recently used (back).  Assigning to an existing key keeps its
  position; assigning a fresh key appends at the back; `move_to_end` removes
  the binding and appends it.  Keys in a Python dict are unique, so deleting a
  collected set of keys equals filtering the corresponding entries out.
* `hashlib.md5(key_data).hexdigest()` is a fixed deterministic function of the
  `key_data` string, so cache keys are modelled by the pre-hash `key_data`
  itself: two keys are equal in the model iff the md5 inputs are equal.
* The cache manager is generic in `retrieval_params` (a `Dict[str, Any]` it
  only ever feeds to `str(...)`), so the model is generic in the params type
  `β` together with the string rendering `paramsStr : β → String` that models
  Python's `str()` of that dict, and in the cached result element type `ρ`.
-/

namespace ICS

/-- A corpus passage as handled by the retriever: text content plus a
string-keyed metadata mapping. -/
structure DocInfo where
  content : String
  metadata : List (String × String)
deriving DecidableEq, Repr, Inhabited

/-- A fused retrieval result: the passage content and metadata together with
the fused score that `hybrid_retrieval` attaches under the `"score"` key. -/
structure RetrievedDoc (α : Type) where
  content : String
  metadata : List (String × String)
  score : α
deriving DecidableEq, Repr

/-- The `retrieval_params` dict built by `hybrid_retrieval` for cache-key
generation: `{"vector_weight": .., "keyword_weight": .., "top_k": ..}`. -/
structure RetrievalParams (α : Type) where
  vector_weight : α
  keyword_weight : α
  top_k : Nat
deriving DecidableEq, Repr

/-- One cache entry, as stored by `QueryCacheManager.set`:
`{"query": .., "params": .., "results": .., "created_time": ..}`. -/
structure CacheEntry (α β ρ : Type) where
  query : String
  params : β
  results : List ρ
  created_time : α
deriving DecidableEq

/-- The running `cache_stats` counters of `QueryCacheManager`. -/
structure CacheStats where
  hits : Nat
  misses : Nat
  total_queries : Nat
deriving DecidableEq, Repr

/-- The full state of a `QueryCacheManager` instance: configuration read at
`__init__` (`cache_enabled`, `cache_ttl`, `cache_max_size`), the `OrderedDict`
of entries (front = least recently used), and the statistics counters. -/
structure CacheState (α β ρ : Type) where
  cache_enabled : Bool
  cache_ttl : α
  cache_max_size : Nat
  entries : List (String × CacheEntry α β ρ)
  stats : CacheStats
deriving DecidableEq

/-- Python dict read `d[k]` / `k in d`: first binding of `k`, if any. -/
def dictGet {γ : Type} (k : String) : List (String × γ) → Option γ
  | [] => none
  | (k', v) :: rest => if k' = k then some v else dictGet k rest

/-- Python dict assignment `d[k] = v`: replaces the binding in place if `k` is
present (keeping its position), otherwise appends it at the back. -/
def dictSet {γ : Type} (k : String) (v : γ) : List (String × γ) → List (String × γ)
  | [] => [(k, v)]
  | (k', v') :: rest => if k' = k then (k, v) :: rest else (k', v') :: dictSet k v rest

/-- Python `del d[k]`: removes the binding of `k` (the first, and in a real
dict the only, occurrence). -/
def dictErase {γ : Type} (k : String) : List (String × γ) → List (String × γ)
  | [] => []
  | (k', v') :: rest => if k' = k then rest else (k', v') :: dictErase k rest

section CacheOps

variable {α β ρ : Type} [LinearOrderedCommRing α]
variable (paramsStr : β → String)

/-- `QueryCacheManager._generate_cache_key`: `key_data = f"{query}_{retrieval_params}"`
followed by `hashlib.md5(key_data.encode()).hexdigest()`.  md5 is a fixed
deterministic function of `key_data`, so the key is modelled by `key_data`
itself (see the file header). -/
def generate_cache_key (query : String) (p : β) : String :=
  query ++ "_" ++ paramsStr p

/-- `QueryCacheManager._is_expired`: false when `cache_ttl <= 0`, otherwise
`time.time() - created_time > cache_ttl`. -/
def is_expired (ttl : α) (now : α) (e : CacheEntry α β ρ) : Bool :=
  if ttl ≤ 0 then false else decide (now - e.created_time > ttl)

/-- `QueryCacheManager._cleanup_expired`: collects the keys of all expired
entries, then deletes them (a filter, since dict keys are unique). -/
def cleanup_expired (now : α) (st : CacheState α β ρ) : CacheState α β ρ :=
  if !st.cache_enabled then st
  else
    let expired_keys := (st.entries.filter (fun kv => is_expired st.cache_ttl now kv.2)).map Prod.fst
    { st with entries := st.entries.filter (fun kv => !expired_keys.contains kv.1) }

/-- The `while len(self.cache) >= self.cache_max_size:` loop of
`_evict_if_needed`, deleting `next(iter(self.cache))` (the front, least
recently used entry) each round.  With `maxSize = 0` the Python loop would
raise `StopIteration` once the dict is empty; the model returns `[]` there,
and every theorem about eviction assumes `1 ≤ maxSize` (the spec requires
`maxEntries` to be a positive integer). -/
def evictLoop (maxSize : Nat) : List (String × CacheEntry α β ρ) → List (String × CacheEntry α β ρ)
  | [] => []
  | kv :: rest => if (kv :: rest).length ≥ maxSize then evictLoop maxSize rest else kv :: rest

/-- `QueryCacheManager._evict_if_needed`. -/
def evict_if_needed (st : CacheState α β ρ) : CacheState α β ρ :=
  if !st.cache_enabled then st
  else { st with entries := evictLoop st.cache_max_size st.entries }

/-- `QueryCacheManager.get`: returns the cached results (if any) and the
updated cache state.  Disabled cache: plain `None` with no bookkeeping.
Otherwise `total_queries` is incremented, then: absent key → miss; present but
expired → the entry is deleted and a miss recorded; present and fresh → a hit
is recorded, the entry is moved to the most-recently-used end, and its stored
results are returned. -/
def cache_get (now : α) (query : String) (p : β) (st : CacheState α β ρ) :
    Option (List ρ) × CacheState α β ρ :=
  if !st.cache_enabled then (none, st)
  else
    let st1 := { st with stats.total_queries := st.stats.total_queries + 1 }
    let key := generate_cache_key paramsStr query p
    match dictGet key st1.entries with
    | some e =>
      if is_expired st1.cache_ttl now e then
        (none, { st1 with entries := dictErase key st1.entries,
                          stats.misses := st1.stats.misses + 1 })
      else
        (some e.results, { st1 with entries := dictErase key st1.entries ++ [(key, e)],
                                    stats.hits := st1.stats.hits + 1 })
    | none => (none, { st1 with stats.misses := st1.stats.misses + 1 })

/-- `QueryCacheManager.set`: no-op when disabled; otherwise purge expired
entries, evict while at capacity, then store the new entry (replacing in place
if the key already exists, else appending at the most-recently-used end). -/
def cache_set (now : α) (query : String) (p : β) (results : List ρ)
    (st : CacheState α β ρ) : CacheState α β ρ :=
  if !st.cache_enabled then st
  else
    let key := generate_cache_key paramsStr query p
    let st1 := cleanup_expired now st
    let st2 := evict_if_needed st1
    { st2 with entries := dictSet key ⟨query, p, results, now⟩ st2.entries }

/-- `QueryCacheManager.clear`: drops all entries and zeroes all counters
(no enabled-guard in the source). -/
def cache_clear (st : CacheState α β ρ) : CacheState α β ρ :=
  { st with entries := [], stats := ⟨0, 0, 0⟩ }

/-- `QueryCacheManager.invalidate_by_query`: collects the keys of all entries
whose stored `query` equals the argument, then deletes them. -/
def invalidate_by_query (query : String) (st : CacheState α β ρ) : CacheState α β ρ :=
  if !st.cache_enabled then st
  else
    let keys_to_remove := (st.entries.filter (fun kv => decide (kv.2.query = query))).map Prod.fst
    { st with entries := st.entries.filter (fun kv => !keys_to_remove.contains kv.1) }

/-- The state of a freshly constructed `QueryCacheManager` with the given
configuration: empty dict, zeroed counters. -/
def freshCache (enabled : Bool) (ttl : α) (maxSize : Nat) : CacheState α β ρ :=
  ⟨enabled, ttl, maxSize, [], ⟨0, 0, 0⟩⟩

/-- One externally invocable cache operation (for reasoning about operation
sequences). -/
inductive CacheOp (α β ρ : Type) where
  | get (now : α) (query : String) (p : β)
  | set (now : α) (query : String) (p : β) (results : List ρ)
  | clear
  | invalidate (query : String)

/-- Apply one cache operation to a state. -/
def applyOp (st : CacheState α β ρ) : CacheOp α β ρ → CacheState α β ρ
  | .get now q p => (cache_get paramsStr now q p st).2
  | .set now q p r => cache_set paramsStr now q p r st
  | .clear => cache_clear st
  | .invalidate q => invalidate_by_query q st

/-- Run a sequence of cache operations from a state. -/
def runOps (st : CacheState α β ρ) (ops : List (CacheOp α β ρ)) : CacheState α β ρ :=
  ops.foldl (applyOp paramsStr) st

end CacheOps

/-- Stable insertion into a list: `x` is placed before the first element `y`
with `le x y`.  Used to model the deterministic sorts of the source. -/
def insertLe {γ : Type} (le : γ → γ → Bool) (x : γ) : List γ → List γ
  | [] => [x]
  | y :: l => if le x y then x :: y :: l else y :: insertLe le x l

/-- Stable insertion sort: for a total preorder `le`, elements that compare
equal keep their input order (the earlier element ends up first), matching the
stability guarantee of Python's `sorted`. -/
def isort {γ : Type} (le : γ → γ → Bool) : List γ → List γ
  | [] => []
  | x :: l => insertLe le x (isort le l)

section Retriever

variable {α : Type} [LinearOrderedCommRing α]

/-- `HybridRetriever.vector_retrieval`: calls the external vector store's
`similarity_search_with_score` (which may fail — `none` models the caught
exception, degraded to an empty result) and converts each `(doc, distance)`
pair to `(1 - distance, doc)`. -/
def vector_retrieval (vectorSearch : String → Nat → Option (List (DocInfo × α)))
    (query : String) (top_k : Nat) : List (α × DocInfo) :=
  match vectorSearch query top_k with
  | none => []
  | some results => results.map (fun dr => (1 - dr.2, dr.1))

/-- `similarities.argsort()` (ascending).  numpy's default sort does not
specify the relative order of equal values; the model uses the stable
determinization, i.e. equal similarities are ordered by ascending index,
which is exactly a sort by the key `(value, index)`. -/
def argsortAsc (sims : List α) : List Nat :=
  isort (fun i j =>
      decide (sims.getD i 0 < sims.getD j 0) ||
      (decide (sims.getD i 0 = sims.getD j 0) && decide (i ≤ j)))
    (List.range sims.length)

/-- Python's tail slice `l[-k:]` for `k ≥ 0`: the last `min k (length l)`
elements — except that `l[-0:]` is the whole list. -/
def pyTailSlice {γ : Type} (l : List γ) (k : Nat) : List γ :=
  if k = 0 then l else l.drop (l.length - k)

/-- `HybridRetriever.keyword_retrieval`: empty when the document cache is
empty or the TF-IDF matrix is unbuilt; otherwise computes the similarity row
(`simFn`, modelling `cosine_similarity(vectorizer.transform([query]),
tfidf_matrix)[0]`, whose failure is caught and degraded to `[]`), takes
`argsort()[-top_k:][::-1]`, and keeps the strictly positive scores in that
order.  Indices produced by `argsortAsc` are below `sims.length`, and the
similarity row has one score per cached document, so the `getD` defaults are
never read in the situations the theorems describe. -/
def keyword_retrieval (simFn : String → Option (List α)) (docs : List DocInfo)
    (built : Bool) (query : String) (top_k : Nat) : List (α × DocInfo) :=
  if docs.isEmpty || !built then []
  else
    match simFn query with
    | none => []
    | some sims =>
      let top_indices := (pyTailSlice (argsortAsc sims) top_k).reverse
      top_indices.filterMap (fun idx =>
        if 0 < sims.getD idx 0 then some (sims.getD idx 0, docs.getD idx default) else none)

/-- `combined_results[content_hash] += similarity * weight` on a
`defaultdict(float)`: an absent key reads as 0 and is appended in insertion
order; an existing key accumulates in place.  `hash(content)` is modelled by
`content` itself (the dedup key is passage content; Python's string hash is an
unspecified process-dependent function of it). -/
def bumpScore {α : Type} [Add α] (k : String) (v : α) :
    List (String × α) → List (String × α)
  | [] => [(k, v)]
  | (k', v') :: rest => if k' = k then (k', v' + v) :: rest else (k', v') :: bumpScore k v rest

/-- The `combined_results` accumulation of `hybrid_retrieval`: vector results
first (each adding `similarity * vector_weight`), then keyword results (each
adding `similarity * keyword_weight`). -/
def combineResults (vw kw : α) (vres kres : List (α × DocInfo)) : List (String × α) :=
  let c1 := vres.foldl (fun acc sr => bumpScore sr.2.content (sr.1 * vw) acc) []
  kres.foldl (fun acc sr => bumpScore sr.2.content (sr.1 * kw) acc) c1

/-- The `result_metadata` map of `hybrid_retrieval`: every vector result is
stored (later duplicates overwrite), keyword results only when the content is
not yet present (vector-first wins). -/
def buildMeta (vres kres : List (α × DocInfo)) : List (String × DocInfo) :=
  let m1 := vres.foldl (fun acc sr => dictSet sr.2.content sr.2 acc) []
  kres.foldl
    (fun acc sr => if (dictGet sr.2.content acc).isSome then acc else dictSet sr.2.content sr.2 acc)
    m1

/-- The fusion step of `hybrid_retrieval` (cache-miss path): accumulate the
weighted scores, sort descending by fused score (Python's `sorted` is stable:
ties keep dict insertion order), truncate to `top_k`, and attach each score to
the remembered metadata.  Every key of `combined_results` is also a key of
`result_metadata` by construction, so the `filterMap` drops nothing. -/
def fuse_results (vw kw : α) (top_k : Nat) (vres kres : List (α × DocInfo)) :
    List (RetrievedDoc α) :=
  let combined := combineResults vw kw vres kres
  let meta := buildMeta vres kres
  let sorted_results := (isort (fun a b => decide (b.2 ≤ a.2)) combined).take top_k
  sorted_results.filterMap (fun ks => (dictGet ks.1 meta).map (fun d => ⟨d.content, d.metadata, ks.2⟩))

/-- The state of a `HybridRetriever` instance: its query cache, the two
retrieval weights, and the keyword index (`documents_cache` plus whether
`tfidf_matrix` is built). -/
structure RetrieverState (α : Type) where
  cache : CacheState α (RetrievalParams α) (RetrievedDoc α)
  vector_weight : α
  keyword_weight : α
  documents_cache : List DocInfo
  index_built : Bool
deriving DecidableEq

/-- Python's `str()` of the fixed-shape `retrieval_params` dict
`{"vector_weight": v, "keyword_weight": k, "top_k": n}`, given a rendering
`numRepr` of the numeric weight values (Python prints floats in decimal; any
injective rendering by digits and sign/point characters satisfies the
hypotheses of the key-uniqueness theorem). -/
def paramsRepr (numRepr : α → String) (p : RetrievalParams α) : String :=
  "\x7b\x27vector_weight\x27: " ++ numRepr p.vector_weight ++
    ", \x27keyword_weight\x27: " ++ numRepr p.keyword_weight ++
    ", \x27top_k\x27: " ++ toString p.top_k ++ "\x7d"

/-- `HybridRetriever.hybrid_retrieval`: build the params dict, consult the
cache, and on a miss run both signals (`top_k * 2` each), fuse, store, and
return.  The whole body sits in `try/except` returning `[]`, but every
failing sub-call (vector store, TF-IDF transform) already catches its own
exception, so no path of the body raises. -/
def hybrid_retrieval (numRepr : α → String)
    (vectorSearch : String → Nat → Option (List (DocInfo × α)))
    (simFn : String → Option (List α)) (now : α) (st : RetrieverState α)
    (query : String) (top_k : Nat) : List (RetrievedDoc α) × RetrieverState α :=
  let retrieval_params : RetrievalParams α := ⟨st.vector_weight, st.keyword_weight, top_k⟩
  let gr := cache_get (paramsRepr numRepr) now query retrieval_params st.cache
  match gr.1 with
  | some cached => (cached, { st with cache := gr.2 })
  | none =>
    let vres := vector_retrieval vectorSearch query (top_k * 2)
    let kres := keyword_retrieval simFn st.documents_cache st.index_built query (top_k * 2)
    let final := fuse_results st.vector_weight st.keyword_weight top_k vres kres
    (final, { st with cache := cache_set (paramsRepr numRepr) now query retrieval_params final gr.2 })

/-- The caller-visible outcome of `hybrid_retrieval`: the source wraps its
body in `try/except Exception` whose handler returns `[]`, so the call never
propagates an exception to the caller; `Except` records that observable. -/
def retrieve (numRepr : α → String)
    (vectorSearch : String → Nat → Option (List (DocInfo × α)))
    (simFn : String → Option (List α)) (now : α) (st : RetrieverState α)
    (query : String) (top_k : Nat) :
    Except String (List (RetrievedDoc α) × RetrieverState α) :=
  .ok (hybrid_retrieval numRepr vectorSearch simFn now st query top_k)

/-- `HybridRetriever.adjust_retrieval_weights`: assigns the new weights with
no validation of any kind. -/
def adjust_retrieval_weights (vw kw : α) (st : RetrieverState α) : RetrieverState α :=
  { st with vector_weight := vw, keyword_weight := kw }

/-- The spec's invalid-configuration condition: negative weights or
non-positive `topK`. -/
def invalidConfig (vw kw : α) (top_k : Nat) : Prop :=
  vw < 0 ∨ kw < 0 ∨ top_k = 0

/-- The score a signal's result list assigns to a given passage content: the
score of its (unique) occurrence, or 0 when the content is absent. -/
def signalScore (res : List (α × DocInfo)) (content : String) : α :=
  ((res.find? (fun sr => sr.2.content == content)).map Prod.fst).getD 0

/-- Modelled from the spec's words for C7 (the claim under test): the `topK`
highest-scoring passages with score > 0, descending by score, ties broken by
original corpus insertion order (ascending index). -/
def keywordSpecClaim (docs : List DocInfo) (sims : List α) (top_k : Nat) :
    List (α × DocInfo) :=
  let order := isort (fun i j =>
      decide (sims.getD j 0 < sims.getD i 0) ||
      (decide (sims.getD i 0 = sims.getD j 0) && decide (i ≤ j)))
    (List.range sims.length)
  (order.take top_k).filterMap (fun idx =>
    if 0 < sims.getD idx 0 then some (sims.getD idx 0, docs.getD idx default) else none)

/-- Like `keywordSpecClaim` but with ties broken by reverse insertion order
(descending index) — the order the code actually produces. -/
def keywordSpecAmended (docs : List DocInfo) (sims : List α) (top_k : Nat) :
    List (α × DocInfo) :=
  let order := isort (fun i j =>
      decide (sims.getD j 0 < sims.getD i 0) ||
      (decide (sims.getD i 0 = sims.getD j 0) && decide (j ≤ i)))
    (List.range sims.length)
  (order.take top_k).filterMap (fun idx =>
    if 0 < sims.getD idx 0 then some (sims.getD idx 0, docs.getD idx default) else none)

end Retriever

section DictLemmas

variable {γ : Type}

theorem dictGet_cons (k : String) (kv : String × γ) (l : List (String × γ)) :
    dictGet k (kv :: l) = if kv.1 = k then some kv.2 else dictGet k l := by
  cases kv
  rfl

theorem dictSet_cons (k : String) (v : γ) (kv : String × γ) (l : List (String × γ)) :
    dictSet k v (kv :: l) = if kv.1 = k then (k, v) :: l else kv :: dictSet k v l := by
  cases kv
  rfl

theorem dictErase_cons (k : String) (kv : String × γ) (l : List (String × γ)) :
    dictErase k (kv :: l) = if kv.1 = k then l else kv :: dictErase k l := by
  cases kv
  rfl

theorem dictGet_dictSet_self (k : String) (v : γ) (l : List (String × γ)) :
    dictGet k (dictSet k v l) = some v := by
  induction l with
  | nil => simp [dictGet, dictSet]
  | cons kv rest ih =>
    rw [dictSet_cons]
    by_cases h : kv.1 = k
    · simp [h, dictGet_cons]
    · rw [if_neg h, dictGet_cons, if_neg h, ih]

theorem dictGet_dictSet_ne {k k' : String} (h : k ≠ k') (v : γ) (l : List (String × γ)) :
    dictGet k' (dictSet k v l) = dictGet k' l := by
  induction l with
  | nil => simp [dictGet, dictSet, h]
  | cons kv rest ih =>
    rw [dictSet_cons]
    by_cases hk : kv.1 = k
    · rw [if_pos hk, dictGet_cons, dictGet_cons, hk]
      simp [h]
    · rw [if_neg hk, dictGet_cons, dictGet_cons, ih]

theorem dictGet_dictErase_ne {k k' : String} (h : k ≠ k') (l : List (String × γ)) :
    dictGet k' (dictErase k l) = dictGet k' l := by
  induction l with
  | nil => simp [dictErase]
  | cons kv rest ih =>
    rw [dictErase_cons]
    by_cases hk : kv.1 = k
    · rw [if_pos hk, dictGet_cons, hk, if_neg h]
    · rw [if_neg hk, dictGet_cons, dictGet_cons, ih]

theorem dictGet_eq_none_iff (k : String) (l : List (String × γ)) :
    dictGet k l = none ↔ k ∉ l.map Prod.fst := by
  induction l with
  | nil => simp [dictGet]
  | cons kv rest ih =>
    rw [dictGet_cons, List.map_cons]
    by_cases h : kv.1 = k
    · simp [h]
    · rw [if_neg h, List.mem_cons]
      simp only [ih]
      constructor
      · exact fun hh hc => hh (hc.resolve_left (fun he => h he.symm))
      · exact fun hh hc => hh (Or.inr hc)

theorem dictGet_append (k : String) (l₁ l₂ : List (String × γ)) :
    dictGet k (l₁ ++ l₂) = (dictGet k l₁).or (dictGet k l₂) := by
  induction l₁ with
  | nil => simp [dictGet]
  | cons kv rest ih =>
    rw [List.cons_append, dictGet_cons, dictGet_cons]
    by_cases h : kv.1 = k
    · simp [h]
    · simp [h, ih]

theorem dictGet_of_mem {k : String} {v : γ} {l : List (String × γ)}
    (hnd : (l.map Prod.fst).Nodup) (hm : (k, v) ∈ l) : dictGet k l = some v := by
  induction l with
  | nil => simp at hm
  | cons kv rest ih =>
    rw [List.map_cons, List.nodup_cons] at hnd
    rw [dictGet_cons]
    rcases List.mem_cons.mp hm with h | h
    · rw [← h]
      simp
    · have hk : kv.1 ≠ k := by
        intro he
        exact hnd.1 (by rw [he]; exact List.mem_map_of_mem Prod.fst h)
      rw [if_neg hk, ih hnd.2 h]

theorem keys_dictErase_not_mem {k : String} {l : List (String × γ)}
    (hnd : (l.map Prod.fst).Nodup) : k ∉ (dictErase k l).map Prod.fst := by
  induction l with
  | nil => simp [dictErase]
  | cons kv rest ih =>
    rw [List.map_cons, List.nodup_cons] at hnd
    rw [dictErase_cons]
    by_cases h : kv.1 = k
    · rw [if_pos h]
      exact fun hc => hnd.1 (h ▸ hc)
    · rw [if_neg h, List.map_cons, List.mem_cons]
      rintro (he | he)
      · exact h he.symm
      · exact ih hnd.2 he

theorem dictGet_dictErase_self {k : String} {l : List (String × γ)}
    (hnd : (l.map Prod.fst).Nodup) : dictGet k (dictErase k l) = none :=
  (dictGet_eq_none_iff k _).mpr (keys_dictErase_not_mem hnd)

theorem dictSet_eq_append {k : String} (v : γ) {l : List (String × γ)}
    (h : k ∉ l.map Prod.fst) : dictSet k v l = l ++ [(k, v)] := by
  induction l with
  | nil => simp [dictSet]
  | cons kv rest ih =>
    rw [List.map_cons, List.mem_cons] at h
    push_neg at h
    rw [dictSet_cons, if_neg (fun he => h.1 he.symm), ih h.2, List.cons_append]

theorem keys_dictSet_mem {k : String} (v : γ) {l : List (String × γ)}
    (h : k ∈ l.map Prod.fst) : (dictSet k v l).map Prod.fst = l.map Prod.fst := by
  induction l with
  | nil => simp at h
  | cons kv rest ih =>
    rw [dictSet_cons]
    by_cases hk : kv.1 = k
    · rw [if_pos hk, List.map_cons, List.map_cons, hk]
    · rw [List.map_cons, List.mem_cons] at h
      rcases h with h | h
      · exact absurd h.symm hk
      · rw [if_neg hk, List.map_cons, List.map_cons, ih h]

theorem length_dictSet_le (k : String) (v : γ) (l : List (String × γ)) :
    (dictSet k v l).length ≤ l.length + 1 := by
  induction l with
  | nil => simp [dictSet]
  | cons kv rest ih =>
    rw [dictSet_cons]
    by_cases h : kv.1 = k
    · simp [h]
    · rw [if_neg h]
      simpa using Nat.succ_le_succ ih

end DictLemmas

section SortLemmas

variable {γ : Type} {le : γ → γ → Bool}

theorem insertLe_perm (le : γ → γ → Bool) (x : γ) (l : List γ) :
    List.Perm (insertLe le x l) (x :: l) := by
  induction l with
  | nil => exact List.Perm.refl _
  | cons y l ih =>
    rw [insertLe]
    split
    · exact List.Perm.refl _
    · exact (List.Perm.cons y ih).trans (List.Perm.swap x y l)

theorem isort_perm (le : γ → γ → Bool) (l : List γ) : List.Perm (isort le l) l := by
  induction l with
  | nil => exact List.Perm.refl _
  | cons x l ih => exact (insertLe_perm le x (isort le l)).trans (ih.cons x)

theorem mem_isort (le : γ → γ → Bool) (l : List γ) (a : γ) :
    a ∈ isort le l ↔ a ∈ l :=
  (isort_perm le l).mem_iff

theorem pairwise_insertLe
    (htot : ∀ a b : γ, le a b = true ∨ le b a = true)
    (htrans : ∀ a b c : γ, le a b = true → le b c = true → le a c = true)
    (x : γ) {l : List γ} (hl : l.Pairwise (fun a b => le a b = true)) :
    (insertLe le x l).Pairwise (fun a b => le a b = true) := by
  induction l with
  | nil => simp [insertLe]
  | cons y l ih =>
    rw [List.pairwise_cons] at hl
    rw [insertLe]
    split
    case isTrue h =>
      rw [List.pairwise_cons]
      refine ⟨?_, List.pairwise_cons.mpr hl⟩
      intro b hb
      rcases List.mem_cons.mp hb with hby | hbl
      · exact hby ▸ h
      · exact htrans x y b h (hl.1 b hbl)
    case isFalse h =>
      have hyx : le y x = true := (htot x y).resolve_left h
      rw [List.pairwise_cons]
      refine ⟨?_, ih hl.2⟩
      intro b hb
      rcases List.mem_cons.mp ((insertLe_perm le x l).mem_iff.mp hb) with hbx | hbl
      · exact hbx ▸ hyx
      · exact hl.1 b hbl

theorem pairwise_isort
    (htot : ∀ a b : γ, le a b = true ∨ le b a = true)
    (htrans : ∀ a b c : γ, le a b = true → le b c = true → le a c = true)
    (l : List γ) : (isort le l).Pairwise (fun a b => le a b = true) := by
  induction l with
  | nil => simp [isort]
  | cons x l ih => exact pairwise_insertLe htot htrans x ih

end SortLemmas

section CacheLemmas

variable {α β ρ : Type}

theorem evictLoop_eq_drop {maxSize : Nat}
    (l : List (String × CacheEntry α β ρ)) :
    evictLoop maxSize l = l.drop (l.length + 1 - maxSize) := by
  induction l with
  | nil => simp [evictLoop]
  | cons kv rest ih =>
    rw [evictLoop]
    by_cases hlen : (kv :: rest).length ≥ maxSize
    · rw [if_pos hlen, ih]
      have h1 : (kv :: rest).length + 1 - maxSize = (rest.length + 1 - maxSize) + 1 := by
        simp only [List.length_cons] at hlen ⊢
        omega
      rw [h1, List.drop_succ_cons]
    · rw [if_neg hlen]
      have h0 : (kv :: rest).length + 1 - maxSize = 0 := by
        simp only [List.length_cons] at hlen ⊢
        omega
      rw [h0, List.drop_zero]

theorem length_evictLoop_le {maxSize : Nat} (h : 1 ≤ maxSize)
    (l : List (String × CacheEntry α β ρ)) :
    (evictLoop maxSize l).length ≤ maxSize - 1 := by
  rw [evictLoop_eq_drop, List.length_drop]
  omega

@[simp] theorem evict_if_needed_cache_enabled (st : CacheState α β ρ) :
    (evict_if_needed st).cache_enabled = st.cache_enabled := by
  rw [evict_if_needed]
  split <;> rfl

@[simp] theorem evict_if_needed_cache_ttl (st : CacheState α β ρ) :
    (evict_if_needed st).cache_ttl = st.cache_ttl := by
  rw [evict_if_needed]
  split <;> rfl

@[simp] theorem evict_if_needed_cache_max_size (st : CacheState α β ρ) :
    (evict_if_needed st).cache_max_size = st.cache_max_size := by
  rw [evict_if_needed]
  split <;> rfl

@[simp] theorem evict_if_needed_stats (st : CacheState α β ρ) :
    (evict_if_needed st).stats = st.stats := by
  rw [evict_if_needed]
  split <;> rfl

variable [LinearOrderedCommRing α]
variable (paramsStr : β → String)

@[simp] theorem cleanup_expired_cache_enabled (now : α) (st : CacheState α β ρ) :
    (cleanup_expired now st).cache_enabled = st.cache_enabled := by
  rw [cleanup_expired]
  split <;> rfl

@[simp] theorem cleanup_expired_cache_ttl (now : α) (st : CacheState α β ρ) :
    (cleanup_expired now st).cache_ttl = st.cache_ttl := by
  rw [cleanup_expired]
  split <;> rfl

@[simp] theorem cleanup_expired_cache_max_size (now : α) (st : CacheState α β ρ) :
    (cleanup_expired now st).cache_max_size = st.cache_max_size := by
  rw [cleanup_expired]
  split <;> rfl

@[simp] theorem cleanup_expired_stats (now : α) (st : CacheState α β ρ) :
    (cleanup_expired now st).stats = st.stats := by
  rw [cleanup_expired]
  split <;> rfl

@[simp] theorem cache_set_cache_enabled (now : α) (q : String) (p : β) (r : List ρ)
    (st : CacheState α β ρ) :
    (cache_set paramsStr now q p r st).cache_enabled = st.cache_enabled := by
  rw [cache_set]
  split <;> simp

@[simp] theorem cache_set_cache_ttl (now : α) (q : String) (p : β) (r : List ρ)
    (st : CacheState α β ρ) :
    (cache_set paramsStr now q p r st).cache_ttl = st.cache_ttl := by
  rw [cache_set]
  split <;> simp

@[simp] theorem cache_set_cache_max_size (now : α) (q : String) (p : β) (r : List ρ)
    (st : CacheState α β ρ) :
    (cache_set paramsStr now q p r st).cache_max_size = st.cache_max_size := by
  rw [cache_set]
  split <;> simp

@[simp] theorem cache_set_stats (now : α) (q : String) (p : β) (r : List ρ)
    (st : CacheState α β ρ) :
    (cache_set paramsStr now q p r st).stats = st.stats := by
  rw [cache_set]
  split <;> simp

theorem cache_get_disabled (now : α) (q : String) (p : β) {st : CacheState α β ρ}
    (h : st.cache_enabled = false) :
    cache_get paramsStr now q p st = (none, st) := by
  rw [cache_get]
  simp [h]

/-- Closed-form characterization of `cache_get` on an enabled cache, making
the three outcomes (miss, expired, hit) and all bookkeeping explicit. -/
theorem cache_get_eq (now : α) (q : String) (p : β) {st : CacheState α β ρ}
    (hen : st.cache_enabled = true) :
    cache_get paramsStr now q p st =
      (match dictGet (generate_cache_key paramsStr q p) st.entries with
       | some e =>
         if is_expired st.cache_ttl now e then
           (none, ⟨st.cache_enabled, st.cache_ttl, st.cache_max_size,
                   dictErase (generate_cache_key paramsStr q p) st.entries,
                   ⟨st.stats.hits, st.stats.misses + 1, st.stats.total_queries + 1⟩⟩)
         else
           (some e.results,
            ⟨st.cache_enabled, st.cache_ttl, st.cache_max_size,
             dictErase (generate_cache_key paramsStr q p) st.entries ++
               [(generate_cache_key paramsStr q p, e)],
             ⟨st.stats.hits + 1, st.stats.misses, st.stats.total_queries + 1⟩⟩)
       | none =>
         (none, ⟨st.cache_enabled, st.cache_ttl, st.cache_max_size, st.entries,
                 ⟨st.stats.hits, st.stats.misses + 1, st.stats.total_queries + 1⟩⟩)) := by
  cases hdg : dictGet (generate_cache_key paramsStr q p) st.entries with
  | none => simp [cache_get, hen, hdg]
  | some e =>
    by_cases hexp : is_expired st.cache_ttl now e <;>
      simp [cache_get, hen, hdg, hexp]

@[simp] theorem cache_get_cache_enabled (now : α) (q : String) (p : β)
    (st : CacheState α β ρ) :
    (cache_get paramsStr now q p st).2.cache_enabled = st.cache_enabled := by
  by_cases hen : st.cache_enabled = true
  · rw [cache_get_eq paramsStr now q p hen]
    split
    · split <;> rfl
    · rfl
  · rw [cache_get_disabled paramsStr now q p (Bool.eq_false_iff.mpr hen)]

@[simp] theorem cache_get_cache_ttl (now : α) (q : String) (p : β)
    (st : CacheState α β ρ) :
    (cache_get paramsStr now q p st).2.cache_ttl = st.cache_ttl := by
  by_cases hen : st.cache_enabled = true
  · rw [cache_get_eq paramsStr now q p hen]
    split
    · split <;> rfl
    · rfl
  · rw [cache_get_disabled paramsStr now q p (Bool.eq_false_iff.mpr hen)]

@[simp] theorem cache_get_cache_max_size (now : α) (q : String) (p : β)
    (st : CacheState α β ρ) :
    (cache_get paramsStr now q p st).2.cache_max_size = st.cache_max_size := by
  by_cases hen : st.cache_enabled = true
  · rw [cache_get_eq paramsStr now q p hen]
    split
    · split <;> rfl
    · rfl
  · rw [cache_get_disabled paramsStr now q p (Bool.eq_false_iff.mpr hen)]

end CacheLemmas

section PlainCacheLemmas

variable {α β ρ : Type}

@[simp] theorem invalidate_by_query_cache_enabled (q : String) (st : CacheState α β ρ) :
    (invalidate_by_query q st).cache_enabled = st.cache_enabled := by
  rw [invalidate_by_query]
  split <;> rfl

@[simp] theorem invalidate_by_query_stats (q : String) (st : CacheState α β ρ) :
    (invalidate_by_query q st).stats = st.stats := by
  rw [invalidate_by_query]
  split <;> rfl

@[simp] theorem invalidate_by_query_cache_ttl (q : String) (st : CacheState α β ρ) :
    (invalidate_by_query q st).cache_ttl = st.cache_ttl := by
  rw [invalidate_by_query]
  split <;> rfl

@[simp] theorem invalidate_by_query_cache_max_size (q : String) (st : CacheState α β ρ) :
    (invalidate_by_query q st).cache_max_size = st.cache_max_size := by
  rw [invalidate_by_query]
  split <;> rfl

end PlainCacheLemmas

section MoreCacheLemmas

variable {α β ρ : Type}

@[simp] theorem cache_clear_cache_enabled (st : CacheState α β ρ) :
    (cache_clear st).cache_enabled = st.cache_enabled := rfl

@[simp] theorem cache_clear_cache_ttl (st : CacheState α β ρ) :
    (cache_clear st).cache_ttl = st.cache_ttl := rfl

@[simp] theorem cache_clear_cache_max_size (st : CacheState α β ρ) :
    (cache_clear st).cache_max_size = st.cache_max_size := rfl

@[simp] theorem cache_clear_stats (st : CacheState α β ρ) :
    (cache_clear st).stats = ⟨0, 0, 0⟩ := rfl

variable [LinearOrderedCommRing α] (paramsStr : β → String)

theorem cache_set_disabled (now : α) (q : String) (p : β) (r : List ρ)
    {st : CacheState α β ρ} (h : st.cache_enabled = false) :
    cache_set paramsStr now q p r st = st := by
  rw [cache_set]
  simp [h]

theorem cache_set_entries (now : α) (q : String) (p : β) (r : List ρ)
    {st : CacheState α β ρ} (hen : st.cache_enabled = true) :
    (cache_set paramsStr now q p r st).entries =
      dictSet (generate_cache_key paramsStr q p) ⟨q, p, r, now⟩
        (evictLoop st.cache_max_size (cleanup_expired now st).entries) := by
  rw [cache_set]
  simp only [hen, Bool.not_true, Bool.false_eq_true, if_false, evict_if_needed]
  simp [hen]

/-- An entry written at time `now` is never expired at time `now` itself
(its age is 0, and `_is_expired` needs age strictly above a positive TTL). -/
theorem is_expired_self (ttl now : α) (q : String) (p : β) (r : List ρ) :
    is_expired ttl now (⟨q, p, r, now⟩ : CacheEntry α β ρ) = false := by
  rw [is_expired]
  split
  · rfl
  · rename_i h
    have hn : ¬ (now - now > ttl) := by
      rw [sub_self]
      exact fun hc => h (le_of_lt hc)
    simpa using hn

/-- Immediately after `set`, a `get` of the same `(query, params)` at the same
time is a hit returning exactly the stored results, and the hit counter is
bumped by one. -/
theorem cache_get_after_set (now : α) (q : String) (p : β) (r : List ρ)
    {st : CacheState α β ρ} (hen : st.cache_enabled = true) :
    (cache_get paramsStr now q p (cache_set paramsStr now q p r st)).1 = some r ∧
    (cache_get paramsStr now q p (cache_set paramsStr now q p r st)).2.stats.hits
      = st.stats.hits + 1 := by
  have hen' : (cache_set paramsStr now q p r st).cache_enabled = true := by simp [hen]
  have hdg : dictGet (generate_cache_key paramsStr q p)
      (cache_set paramsStr now q p r st).entries = some ⟨q, p, r, now⟩ := by
    rw [cache_set_entries paramsStr now q p r hen]
    exact dictGet_dictSet_self _ _ _
  have hexp : is_expired st.cache_ttl now
      (⟨q, p, r, now⟩ : CacheEntry α β ρ) = false := is_expired_self _ _ _ _ _
  rw [cache_get_eq paramsStr now q p hen', hdg]
  simp [hexp]

/-- Replaying a `get` that hit: the same `get` on the post-state hits again
with the same results and bumps the hit counter once more. -/
theorem cache_get_replay_hit (now : α) (q : String) (p : β)
    {st : CacheState α β ρ} {res : List ρ} (hen : st.cache_enabled = true)
    (hnd : (st.entries.map Prod.fst).Nodup)
    (h1 : (cache_get paramsStr now q p st).1 = some res) :
    (cache_get paramsStr now q p (cache_get paramsStr now q p st).2).1 = some res ∧
    (cache_get paramsStr now q p (cache_get paramsStr now q p st).2).2.stats.hits
      = (cache_get paramsStr now q p st).2.stats.hits + 1 := by
  cases hdg : dictGet (generate_cache_key paramsStr q p) st.entries with
  | none =>
    rw [cache_get_eq paramsStr now q p hen] at h1
    simp only [hdg] at h1
    simp at h1
  | some e =>
    by_cases hexp : is_expired st.cache_ttl now e = true
    · rw [cache_get_eq paramsStr now q p hen] at h1
      simp only [hdg, hexp, if_true] at h1
      simp at h1
    · have hres : e.results = res := by
        rw [cache_get_eq paramsStr now q p hen] at h1
        simp only [hdg, hexp, if_false, Bool.false_eq_true] at h1
        simpa using h1
      have hstate : (cache_get paramsStr now q p st).2 =
          ⟨st.cache_enabled, st.cache_ttl, st.cache_max_size,
           dictErase (generate_cache_key paramsStr q p) st.entries ++
             [(generate_cache_key paramsStr q p, e)],
           ⟨st.stats.hits + 1, st.stats.misses, st.stats.total_queries + 1⟩⟩ := by
        rw [cache_get_eq paramsStr now q p hen]
        simp [hdg, hexp]
      have hdg2 : dictGet (generate_cache_key paramsStr q p)
          (dictErase (generate_cache_key paramsStr q p) st.entries ++
            [(generate_cache_key paramsStr q p, e)]) = some e := by
        rw [dictGet_append, dictGet_dictErase_self hnd]
        simp [dictGet]
      rw [hstate, cache_get_eq paramsStr now q p (by simpa using hen)]
      simp only [hdg2, hexp, if_false, Bool.false_eq_true]
      exact ⟨by simp [hres], by simp⟩

end MoreCacheLemmas

section OpSequences

variable {α β ρ : Type} [LinearOrderedCommRing α] (paramsStr : β → String)

theorem runOps_cons (st : CacheState α β ρ) (op : CacheOp α β ρ) (ops : List (CacheOp α β ρ)) :
    runOps paramsStr st (op :: ops) = runOps paramsStr (applyOp paramsStr st op) ops := rfl

theorem applyOp_cache_enabled (st : CacheState α β ρ) (op : CacheOp α β ρ) :
    (applyOp paramsStr st op).cache_enabled = st.cache_enabled := by
  cases op <;> simp [applyOp]

theorem applyOp_cache_max_size (st : CacheState α β ρ) (op : CacheOp α β ρ) :
    (applyOp paramsStr st op).cache_max_size = st.cache_max_size := by
  cases op <;> simp [applyOp]

theorem runOps_cache_enabled (ops : List (CacheOp α β ρ)) :
    ∀ st : CacheState α β ρ, (runOps paramsStr st ops).cache_enabled = st.cache_enabled := by
  induction ops with
  | nil => intro st; rfl
  | cons op ops ih =>
    intro st
    rw [runOps_cons, ih, applyOp_cache_enabled]

theorem runOps_cache_max_size (ops : List (CacheOp α β ρ)) :
    ∀ st : CacheState α β ρ, (runOps paramsStr st ops).cache_max_size = st.cache_max_size := by
  induction ops with
  | nil => intro st; rfl
  | cons op ops ih =>
    intro st
    rw [runOps_cons, ih, applyOp_cache_max_size]

theorem length_cache_set_le (now : α) (q : String) (p : β) (r : List ρ)
    {st : CacheState α β ρ} (hen : st.cache_enabled = true)
    (hmax : 1 ≤ st.cache_max_size) :
    (cache_set paramsStr now q p r st).entries.length ≤ st.cache_max_size := by
  rw [cache_set_entries paramsStr now q p r hen]
  have h1 := length_dictSet_le (generate_cache_key paramsStr q p)
    (⟨q, p, r, now⟩ : CacheEntry α β ρ)
    (evictLoop st.cache_max_size (cleanup_expired now st).entries)
  have h2 := length_evictLoop_le hmax ((cleanup_expired now st).entries)
  omega

theorem cache_get_stats_delta (now : α) (q : String) (p : β)
    {st : CacheState α β ρ} (hen : st.cache_enabled = true) :
    (cache_get paramsStr now q p st).2.stats.total_queries = st.stats.total_queries + 1 ∧
    (((cache_get paramsStr now q p st).2.stats.hits = st.stats.hits + 1 ∧
      (cache_get paramsStr now q p st).2.stats.misses = st.stats.misses) ∨
     ((cache_get paramsStr now q p st).2.stats.misses = st.stats.misses + 1 ∧
      (cache_get paramsStr now q p st).2.stats.hits = st.stats.hits)) := by
  rw [cache_get_eq paramsStr now q p hen]
  cases dictGet (generate_cache_key paramsStr q p) st.entries with
  | none => exact ⟨rfl, Or.inr ⟨rfl, rfl⟩⟩
  | some e =>
    by_cases hexp : is_expired st.cache_ttl now e = true <;> simp [hexp]

theorem applyOp_stats_inv (st : CacheState α β ρ) (op : CacheOp α β ρ)
    (h : st.stats.total_queries = st.stats.hits + st.stats.misses) :
    (applyOp paramsStr st op).stats.total_queries =
      (applyOp paramsStr st op).stats.hits + (applyOp paramsStr st op).stats.misses := by
  cases op with
  | get now q p =>
    by_cases hen : st.cache_enabled = true
    · have hd := cache_get_stats_delta paramsStr now q p hen
      rcases hd.2 with ⟨hh, hm⟩ | ⟨hm, hh⟩ <;>
        simp only [applyOp] <;> omega
    · simp only [applyOp,
        cache_get_disabled paramsStr now q p (Bool.eq_false_iff.mpr hen)]
      exact h
  | set now q p r => simpa [applyOp] using h
  | clear => simp [applyOp]
  | invalidate q => simpa [applyOp] using h

theorem runOps_stats_inv (ops : List (CacheOp α β ρ)) :
    ∀ st : CacheState α β ρ,
      st.stats.total_queries = st.stats.hits + st.stats.misses →
      (runOps paramsStr st ops).stats.total_queries =
        (runOps paramsStr st ops).stats.hits + (runOps paramsStr st ops).stats.misses := by
  induction ops with
  | nil => intro st h; exact h
  | cons op ops ih =>
    intro st h
    rw [runOps_cons]
    exact ih _ (applyOp_stats_inv paramsStr st op h)

end OpSequences

/-- C2: for every sequence of cache operations starting from a fresh enabled
cache (whose `maxEntries` is positive, as the spec's data model requires),
immediately after any `set` call returns, the number of entries held by the
cache is at most `maxEntries`. -/
theorem claim_C2_set_bounded_by_max_entries {α β ρ : Type} [LinearOrderedCommRing α]
    (paramsStr : β → String) (ttl : α) (maxSize : Nat) (hmax : 1 ≤ maxSize)
    (ops : List (CacheOp α β ρ)) (now : α) (q : String) (p : β) (r : List ρ) :
    (cache_set paramsStr now q p r
        (runOps paramsStr (freshCache true ttl maxSize) ops)).entries.length ≤ maxSize := by
  have hen : (runOps paramsStr (freshCache (β := β) (ρ := ρ) true ttl maxSize) ops).cache_enabled
      = true := by
    rw [runOps_cache_enabled]
    rfl
  have hm : (runOps paramsStr (freshCache (β := β) (ρ := ρ) true ttl maxSize) ops).cache_max_size
      = maxSize := by
    rw [runOps_cache_max_size]
    rfl
  have hle := length_cache_set_le paramsStr now q p r hen (by omega)
  omega

/-- Witness for C2: a concrete run over ℤ with `maxEntries = 1`. -/
theorem claim_C2_set_bounded_by_max_entries_witness :
    1 ≤ 1 ∧
    (cache_set (fun _ : Unit => "") (0 : ℤ) "q" () ([] : List Unit)
        (runOps (fun _ : Unit => "") (freshCache true (0 : ℤ) 1)
          [CacheOp.set 0 "q0" () [], CacheOp.set 0 "q1" () []])).entries.length ≤ 1 :=
  ⟨by decide,
   claim_C2_set_bounded_by_max_entries (fun _ : Unit => "") 0 1 (by decide)
     [CacheOp.set 0 "q0" () [], CacheOp.set 0 "q1" () []] 0 "q" () []⟩

/-- C10: the statistics counters satisfy `totalQueries = hits + misses` after
every operation sequence from a fresh cache; an enabled `get` increments
`totalQueries` by exactly one and exactly one of `hits`/`misses` by one;
`set` and `invalidate` never change any counter; `clear` resets all three to
zero; and a `get` on a disabled cache leaves all counters unchanged. -/
theorem claim_C10_stats_counters_invariant {α β ρ : Type} [LinearOrderedCommRing α]
    (paramsStr : β → String) :
    (∀ (enabled : Bool) (ttl : α) (maxSize : Nat) (ops : List (CacheOp α β ρ)),
      (runOps paramsStr (freshCache enabled ttl maxSize) ops).stats.total_queries =
        (runOps paramsStr (freshCache enabled ttl maxSize) ops).stats.hits +
        (runOps paramsStr (freshCache enabled ttl maxSize) ops).stats.misses) ∧
    (∀ (st : CacheState α β ρ) (now : α) (q : String) (p : β),
      st.cache_enabled = true →
      (cache_get paramsStr now q p st).2.stats.total_queries = st.stats.total_queries + 1 ∧
      (((cache_get paramsStr now q p st).2.stats.hits = st.stats.hits + 1 ∧
        (cache_get paramsStr now q p st).2.stats.misses = st.stats.misses) ∨
       ((cache_get paramsStr now q p st).2.stats.misses = st.stats.misses + 1 ∧
        (cache_get paramsStr now q p st).2.stats.hits = st.stats.hits))) ∧
    (∀ (st : CacheState α β ρ) (now : α) (q : String) (p : β) (r : List ρ),
      (cache_set paramsStr now q p r st).stats = st.stats) ∧
    (∀ (st : CacheState α β ρ) (q : String),
      (invalidate_by_query q st).stats = st.stats) ∧
    (∀ st : CacheState α β ρ, (cache_clear st).stats = ⟨0, 0, 0⟩) ∧
    (∀ (st : CacheState α β ρ) (now : α) (q : String) (p : β),
      st.cache_enabled = false → (cache_get paramsStr now q p st).2.stats = st.stats) := by
  refine ⟨?_, ?_, ?_, ?_, ?_, ?_⟩
  · intro enabled ttl maxSize ops
    exact runOps_stats_inv paramsStr ops _ rfl
  · intro st now q p hen
    exact cache_get_stats_delta paramsStr now q p hen
  · intro st now q p r
    simp
  · intro st q
    simp
  · intro st
    rfl
  · intro st now q p hdis
    rw [cache_get_disabled paramsStr now q p hdis]

/-- Witness for C10: the invariant and the get-delta at concrete inputs. -/
theorem claim_C10_stats_counters_invariant_witness :
    ((runOps (fun _ : Unit => "") (freshCache (ρ := Unit) true (0 : ℤ) 5)
        [CacheOp.get 0 "q" (), CacheOp.set 0 "q" () ([] : List Unit),
         CacheOp.get 0 "q" ()]).stats.total_queries =
      (runOps (fun _ : Unit => "") (freshCache (ρ := Unit) true (0 : ℤ) 5)
        [CacheOp.get 0 "q" (), CacheOp.set 0 "q" () [],
         CacheOp.get 0 "q" ()]).stats.hits +
      (runOps (fun _ : Unit => "") (freshCache (ρ := Unit) true (0 : ℤ) 5)
        [CacheOp.get 0 "q" (), CacheOp.set 0 "q" () [],
         CacheOp.get 0 "q" ()]).stats.misses) ∧
    ((cache_get (fun _ : Unit => "") (0 : ℤ) "q" ()
        (freshCache (ρ := Unit) true 0 5)).2.stats.total_queries =
      (freshCache (β := Unit) (ρ := Unit) true (0 : ℤ) 5).stats.total_queries + 1) :=
  ⟨(claim_C10_stats_counters_invariant (fun _ : Unit => "")).1 true 0 5 _,
   ((claim_C10_stats_counters_invariant (fun _ : Unit => "")).2.1
      (freshCache true 0 5) 0 "q" () (by decide)).1⟩

/-- C4 is refuted at the expiry boundary: the code's `_is_expired` test is
strict (`now - created_time > ttl`), so an entry inserted at `T = 0` with
`ttl = 5` is still served by a `get` at time `5`, although `5 ≥ T + S`; the
claim says such a `get` returns nothing. -/
theorem claim_C4_counterexample :
    (5 : ℤ) ≥ 0 + 5 ∧
    (cache_get (fun _ : Unit => "") (5 : ℤ) "q" ()
        (cache_set (fun _ : Unit => "") (0 : ℤ) "q" () [1, 2]
          (freshCache true 5 10))).1 = some [1, 2] ∧
    (some [1, 2] : Option (List Nat)) ≠ none := by
  refine ⟨by decide, by decide, by decide⟩

/-- C4 (amended): with the boundary corrected to the code's strict test — an
entry inserted at time `T` with `ttl = S > 0` is gone (miss recorded, entry
removed) for every `get` made at a time strictly greater than `T + S`, is
returned unchanged for every `get` at a time `≤ T + S`, and with `ttl = 0`
a present entry is always returned regardless of its age. -/
theorem claim_C4_ttl_expiry {α β ρ : Type} [LinearOrderedCommRing α]
    (paramsStr : β → String) (now : α) (q : String) (p : β)
    (st : CacheState α β ρ) (e : CacheEntry α β ρ)
    (hen : st.cache_enabled = true)
    (hdg : dictGet (generate_cache_key paramsStr q p) st.entries = some e) :
    (0 < st.cache_ttl → e.created_time + st.cache_ttl < now →
      (cache_get paramsStr now q p st).1 = none ∧
      (cache_get paramsStr now q p st).2.stats.misses = st.stats.misses + 1 ∧
      ((st.entries.map Prod.fst).Nodup →
        dictGet (generate_cache_key paramsStr q p)
          (cache_get paramsStr now q p st).2.entries = none)) ∧
    (0 < st.cache_ttl → now ≤ e.created_time + st.cache_ttl →
      (cache_get paramsStr now q p st).1 = some e.results) ∧
    (st.cache_ttl = 0 →
      (cache_get paramsStr now q p st).1 = some e.results) := by
  refine ⟨?_, ?_, ?_⟩
  · intro httl hlate
    have hexp : is_expired st.cache_ttl now e = true := by
      rw [is_expired, if_neg (not_le.mpr httl)]
      exact decide_eq_true (by linarith)
    rw [cache_get_eq paramsStr now q p hen]
    simp only [hdg, hexp, if_true]
    exact ⟨trivial, trivial, fun hnd => dictGet_dictErase_self hnd⟩
  · intro httl hearly
    have hexp : is_expired st.cache_ttl now e = false := by
      rw [is_expired, if_neg (not_le.mpr httl)]
      simp only [decide_eq_false_iff_not, not_lt]
      linarith
    rw [cache_get_eq paramsStr now q p hen]
    simp [hdg, hexp]
  · intro httl
    have hexp : is_expired st.cache_ttl now e = false := by
      rw [is_expired, if_pos (le_of_eq httl)]
    rw [cache_get_eq paramsStr now q p hen]
    simp [hdg, hexp]

/-- Witness for C4 (amended) over ℤ: `ttl = 5`, entry stored at `T = 0`;
a `get` at time `6 > 5` misses and removes the entry. -/
theorem claim_C4_ttl_expiry_witness :
    (cache_get (fun _ : Unit => "") (6 : ℤ) "q" ()
        (cache_set (fun _ : Unit => "") (0 : ℤ) "q" () [1, 2]
          (freshCache true 5 10))).1 = none ∧
    (cache_get (fun _ : Unit => "") (6 : ℤ) "q" ()
        (cache_set (fun _ : Unit => "") (0 : ℤ) "q" () [1, 2]
          (freshCache (ρ := Nat) true 5 10))).2.stats.misses =
      (cache_set (fun _ : Unit => "") (0 : ℤ) "q" () [1, 2]
          (freshCache (ρ := Nat) true 5 10)).stats.misses + 1 := by
  have h := (claim_C4_ttl_expiry (fun _ : Unit => "") (6 : ℤ) "q" ()
      (cache_set (fun _ : Unit => "") (0 : ℤ) "q" () [1, 2] (freshCache true 5 10))
      ⟨"q", (), [1, 2], 0⟩ (by decide) (by decide)).1 (by decide) (by decide)
  exact ⟨h.1, h.2.1⟩

/-- C9: `invalidate_by_query q` removes exactly the entries whose stored
`query` equals `q` (across all params/keys) and leaves every other entry
unchanged — same key, results and timestamp, in the same relative recency
order (the post-state is literally the filter of the pre-state) — and touches
no counter.  Stated for an enabled cache with the (always true in Python)
unique-keys property; on a disabled cache the operation is a no-op. -/
theorem claim_C9_invalidate_exact_by_query {α β ρ : Type} (q : String)
    (st : CacheState α β ρ) (hen : st.cache_enabled = true)
    (hnd : (st.entries.map Prod.fst).Nodup) :
    (invalidate_by_query q st).entries
      = st.entries.filter (fun kv => decide (kv.2.query ≠ q)) ∧
    (invalidate_by_query q st).stats = st.stats := by
  refine ⟨?_, by simp⟩
  rw [invalidate_by_query]
  simp only [hen, Bool.not_true, Bool.false_eq_true, if_false]
  apply List.filter_congr
  intro kv hkv
  have hiff : ((st.entries.filter (fun kv' => decide (kv'.2.query = q))).map
      Prod.fst).contains kv.1 = true ↔ kv.2.query = q := by
    constructor
    · intro hc
      rcases List.mem_map.mp (List.elem_iff.mp hc) with ⟨kv', hkv', hfst⟩
      rcases List.mem_filter.mp hkv' with ⟨hkvm, hq⟩
      have hkk : kv' = kv := List.inj_on_of_nodup_map hnd hkvm hkv hfst
      exact hkk ▸ (of_decide_eq_true hq)
    · intro hq
      exact List.elem_iff.mpr
        (List.mem_map_of_mem Prod.fst
          (List.mem_filter.mpr ⟨hkv, decide_eq_true hq⟩))
  by_cases hq : kv.2.query = q
  · rw [hiff.mpr hq]
    simp [hq]
  · have hc : ((st.entries.filter (fun kv' => decide (kv'.2.query = q))).map
        Prod.fst).contains kv.1 = false := by
      rw [Bool.eq_false_iff]
      exact fun hcc => hq (hiff.mp hcc)
    rw [hc]
    simp [hq]

/-- Witness for C9: invalidating query `"a"` on a two-entry cache removes the
`"a"` entry and keeps the `"b"` entry in place. -/
theorem claim_C9_invalidate_exact_by_query_witness :
    (invalidate_by_query "a"
        (cache_set (fun _ : Unit => "") (0 : ℤ) "b" () [2]
          (cache_set (fun _ : Unit => "") (0 : ℤ) "a" () [1]
            (freshCache true 0 10)))).entries
      = (cache_set (fun _ : Unit => "") (0 : ℤ) "b" () [2]
          (cache_set (fun _ : Unit => "") (0 : ℤ) "a" () [1]
            (freshCache (ρ := Nat) true 0 10))).entries.filter
          (fun kv => decide (kv.2.query ≠ "a")) :=
  (claim_C9_invalidate_exact_by_query "a"
      (cache_set (fun _ : Unit => "") (0 : ℤ) "b" () [2]
        (cache_set (fun _ : Unit => "") (0 : ℤ) "a" () [1]
          (freshCache true 0 10)))
      (by decide) (by decide)).1

section RecencyLemmas

variable {α β ρ : Type}

theorem map_fst_dictErase {γ : Type} (k : String) (l : List (String × γ)) :
    (dictErase k l).map Prod.fst = (l.map Prod.fst).erase k := by
  induction l with
  | nil => simp [dictErase]
  | cons kv rest ih =>
    rw [dictErase_cons]
    by_cases h : kv.1 = k
    · rw [if_pos h, List.map_cons, h, List.erase_cons_head]
    · rw [if_neg h, List.map_cons, List.map_cons,
        List.erase_cons_tail (by simpa using h), ih]

theorem mem_of_mem_cleanup_expired [LinearOrderedCommRing α] (now : α)
    {st : CacheState α β ρ} {kv : String × CacheEntry α β ρ}
    (h : kv ∈ (cleanup_expired now st).entries) : kv ∈ st.entries := by
  rw [cleanup_expired] at h
  split at h
  · exact h
  · exact (List.mem_filter.mp h).1

theorem cleanup_expired_entries_of_fresh [LinearOrderedCommRing α] (now : α)
    {st : CacheState α β ρ}
    (hall : ∀ kv ∈ st.entries, is_expired st.cache_ttl now kv.2 = false) :
    (cleanup_expired now st).entries = st.entries := by
  rw [cleanup_expired]
  split
  · rfl
  · have hnil : st.entries.filter (fun kv => is_expired st.cache_ttl now kv.2) = [] :=
      List.filter_eq_nil_iff.mpr (fun kv hkv => by simp [hall kv hkv])
    simp [hnil]

theorem evict_if_needed_entries_of_room {st : CacheState α β ρ}
    (hroom : st.entries.length < st.cache_max_size) :
    (evict_if_needed st).entries = st.entries := by
  rw [evict_if_needed]
  split
  · rfl
  · have h0 : st.entries.length + 1 - st.cache_max_size = 0 := by omega
    simp [evictLoop_eq_drop, h0]

end RecencyLemmas

/-- C3 is refuted on its replace-an-existing-key conjunct: Python dict
assignment to an existing key keeps the key's position in the `OrderedDict`
(only `move_to_end`, used by `get`, changes recency).  Setting `"a"`, then
`"b"`, then `"a"` again leaves the key order `[a, b]`: the touched key is not
at the most-recently-used (last) position as the claim requires. -/
theorem claim_C3_counterexample :
    ((cache_set (fun n : Nat => toString n) (0 : ℤ) "a" 1 [9]
        (cache_set (fun n : Nat => toString n) (0 : ℤ) "b" 1 [8]
          (cache_set (fun n : Nat => toString n) (0 : ℤ) "a" 1 [7]
            (freshCache true 0 10)))).entries.map Prod.fst = ["a_1", "b_1"]) ∧
    ((cache_set (fun n : Nat => toString n) (0 : ℤ) "a" 1 [9]
        (cache_set (fun n : Nat => toString n) (0 : ℤ) "b" 1 [8]
          (cache_set (fun n : Nat => toString n) (0 : ℤ) "a" 1 [7]
            (freshCache (ρ := Nat) true 0 10)))).entries.map Prod.fst).getLast?
      ≠ some (generate_cache_key (fun n : Nat => toString n) "a" 1) := by
  refine ⟨by decide, by decide⟩

/-- C3 (amended): the recency order behaves as the claim says for `get` hits
(entry moved to the most-recently-used end, all other bindings untouched),
for `set` of an absent key (appended at the most-recently-used end), and for
capacity eviction (entries are removed from the least-recently-used front);
but `set` of an already-present key replaces the entry in place — timestamp
refreshed and results replaced, position in the recency order preserved, not
reset to most-recently-used. -/
theorem claim_C3_recency_order {α β ρ : Type} [LinearOrderedCommRing α]
    (paramsStr : β → String) :
    (∀ (now : α) (q : String) (p : β) (st : CacheState α β ρ) (e : CacheEntry α β ρ),
      st.cache_enabled = true →
      dictGet (generate_cache_key paramsStr q p) st.entries = some e →
      is_expired st.cache_ttl now e = false →
      ((cache_get paramsStr now q p st).2.entries.map Prod.fst
          = ((st.entries.map Prod.fst).erase (generate_cache_key paramsStr q p))
              ++ [generate_cache_key paramsStr q p] ∧
       (∀ k', k' ≠ generate_cache_key paramsStr q p →
          dictGet k' (cache_get paramsStr now q p st).2.entries
            = dictGet k' st.entries))) ∧
    (∀ (now : α) (q : String) (p : β) (r : List ρ) (st : CacheState α β ρ),
      st.cache_enabled = true →
      generate_cache_key paramsStr q p ∉ st.entries.map Prod.fst →
      (cache_set paramsStr now q p r st).entries.getLast?
        = some (generate_cache_key paramsStr q p, ⟨q, p, r, now⟩)) ∧
    (∀ (now : α) (q : String) (p : β) (r : List ρ) (st : CacheState α β ρ)
       (e : CacheEntry α β ρ),
      st.cache_enabled = true →
      dictGet (generate_cache_key paramsStr q p) st.entries = some e →
      (∀ kv ∈ st.entries, is_expired st.cache_ttl now kv.2 = false) →
      st.entries.length < st.cache_max_size →
      ((cache_set paramsStr now q p r st).entries.map Prod.fst
          = st.entries.map Prod.fst ∧
       dictGet (generate_cache_key paramsStr q p)
          (cache_set paramsStr now q p r st).entries = some ⟨q, p, r, now⟩ ∧
       (∀ k', k' ≠ generate_cache_key paramsStr q p →
          dictGet k' (cache_set paramsStr now q p r st).entries
            = dictGet k' st.entries))) ∧
    (∀ st : CacheState α β ρ, st.cache_enabled = true →
      (evict_if_needed st).entries
        = st.entries.drop (st.entries.length + 1 - st.cache_max_size)) := by
  refine ⟨?_, ?_, ?_, ?_⟩
  · intro now q p st e hen hdg hexp
    have hst : (cache_get paramsStr now q p st).2.entries
        = dictErase (generate_cache_key paramsStr q p) st.entries ++
            [(generate_cache_key paramsStr q p, e)] := by
      rw [cache_get_eq paramsStr now q p hen]
      simp [hdg, hexp]
    rw [hst]
    constructor
    · rw [List.map_append, map_fst_dictErase]
      rfl
    · intro k' hk'
      rw [dictGet_append, dictGet_dictErase_ne (fun he => hk' he.symm)]
      have hne : ¬ generate_cache_key paramsStr q p = k' := fun he => hk' he.symm
      have hnone : dictGet k' [(generate_cache_key paramsStr q p, e)] = none := by
        simp [dictGet, hne]
      rw [hnone, Option.or_none]
  · intro now q p r st hen habs
    rw [cache_set_entries paramsStr now q p r hen]
    have habs2 : generate_cache_key paramsStr q p ∉
        (evictLoop st.cache_max_size (cleanup_expired now st).entries).map Prod.fst := by
      intro hc
      rcases List.mem_map.mp hc with ⟨kv, hkv, hfst⟩
      have hkv2 : kv ∈ (cleanup_expired now st).entries := by
        rw [evictLoop_eq_drop] at hkv
        exact List.drop_subset _ _ hkv
      exact habs (List.mem_map.mpr ⟨kv, mem_of_mem_cleanup_expired now hkv2, hfst⟩)
    rw [dictSet_eq_append _ habs2, List.getLast?_concat]
  · intro now q p r st e hen hdg hall hroom
    have hkeys : generate_cache_key paramsStr q p ∈ st.entries.map Prod.fst := by
      by_contra habs
      rw [← dictGet_eq_none_iff] at habs
      rw [habs] at hdg
      exact Option.noConfusion hdg
    have hcl : (cleanup_expired now st).entries = st.entries :=
      cleanup_expired_entries_of_fresh now hall
    have hev : (evict_if_needed (cleanup_expired now st)).entries
        = (cleanup_expired now st).entries := by
      apply evict_if_needed_entries_of_room
      rw [hcl]
      simpa using hroom
    have hse : (cache_set paramsStr now q p r st).entries
        = dictSet (generate_cache_key paramsStr q p) ⟨q, p, r, now⟩ st.entries := by
      rw [cache_set_entries paramsStr now q p r hen]
      have : evictLoop st.cache_max_size (cleanup_expired now st).entries
          = st.entries := by
        have h2 := hev
        rw [evict_if_needed] at h2
        rw [hcl] at h2 ⊢
        rw [evictLoop_eq_drop]
        have h0 : st.entries.length + 1 - st.cache_max_size = 0 := by omega
        simp [h0]
      rw [this]
    rw [hse]
    exact ⟨keys_dictSet_mem _ hkeys, dictGet_dictSet_self _ _ _,
      fun k' hk' => dictGet_dictSet_ne (fun he => hk' he.symm) _ _⟩
  · intro st hen
    rw [evict_if_needed]
    simp [hen, evictLoop_eq_drop]

/-- Witness for C3 (amended): a concrete `get` hit moves the touched key to
the end, and a concrete `set` of a fresh key appends it at the end. -/
theorem claim_C3_recency_order_witness :
    ((cache_get (fun _ : Unit => "") (0 : ℤ) "a" ()
        (cache_set (fun _ : Unit => "") (0 : ℤ) "b" () [2]
          (cache_set (fun _ : Unit => "") (0 : ℤ) "a" () [1]
            (freshCache true 0 10)))).2.entries.map Prod.fst
      = (((cache_set (fun _ : Unit => "") (0 : ℤ) "b" () [2]
          (cache_set (fun _ : Unit => "") (0 : ℤ) "a" () [1]
            (freshCache (ρ := Nat) true 0 10))).entries.map Prod.fst).erase
            (generate_cache_key (fun _ : Unit => "") "a" ()))
          ++ [generate_cache_key (fun _ : Unit => "") "a" ()]) ∧
    ((cache_set (fun _ : Unit => "") (0 : ℤ) "c" () [3]
        (freshCache true 0 10)).entries.getLast?
      = some (generate_cache_key (fun _ : Unit => "") "c" (),
              ⟨"c", (), ([3] : List Nat), 0⟩)) := by
  constructor
  · exact ((claim_C3_recency_order (fun _ : Unit => "")).1 0 "a" ()
      (cache_set (fun _ : Unit => "") (0 : ℤ) "b" () [2]
        (cache_set (fun _ : Unit => "") (0 : ℤ) "a" () [1]
          (freshCache true 0 10)))
      ⟨"a", (), [1], 0⟩ (by decide) (by decide) (by decide)).1
  · exact (claim_C3_recency_order (fun _ : Unit => "")).2.1 0 "c" () [3]
      (freshCache true 0 10) (by decide) (by decide)

section RetrieverLemmas

variable {α : Type} [LinearOrderedCommRing α]

theorem keyword_retrieval_simFn_none (simFn : String → Option (List α))
    (docs : List DocInfo) (built : Bool) (q : String) (k : Nat)
    (h : simFn q = none) : keyword_retrieval simFn docs built q k = [] := by
  rw [keyword_retrieval]
  split
  · rfl
  · rw [h]

theorem fuse_results_nil (vw kw : α) (k : Nat) :
    fuse_results vw kw k [] [] = ([] : List (RetrievedDoc α)) := by
  simp [fuse_results, combineResults, buildMeta, isort]

end RetrieverLemmas

/-- C5 is refuted: the code performs no configuration validation at all.
With a negative vector weight and `topK = 0` — an invalid configuration per
the spec — `retrieve` still succeeds (returning `.ok`), so "errors iff the
configuration is invalid" fails at this input. -/
theorem claim_C5_counterexample :
    ¬ ((∃ err, retrieve (fun z : ℤ => toString z) (fun _ _ => none) (fun _ => none)
          (0 : ℤ) ⟨freshCache true 0 10, -1, 1, [], false⟩ "q" 0 = Except.error err)
        ↔ invalidConfig (-1 : ℤ) 1 0) := by
  intro h
  have hinv : invalidConfig (-1 : ℤ) 1 0 := Or.inl (by norm_num)
  rcases h.mpr hinv with ⟨err, herr⟩
  rw [retrieve] at herr
  exact Except.noConfusion herr

/-- C5 (amended): `retrieve` never surfaces an error to the caller.  There is
no configuration validation anywhere — `adjust_retrieval_weights` stores any
weights unchecked, and invalid weights/topK flow into the fuser as-is — and
every internal signal failure is absorbed, so when both signal sources fail
and the cache has no stored answer the call returns the empty result set
(`.ok []`), not an error. -/
theorem claim_C5_no_error_surfaces {α : Type} [LinearOrderedCommRing α] :
    (∀ (numRepr : α → String) vectorSearch simFn (now : α) st (q : String) (k : Nat),
      ∃ res, retrieve numRepr vectorSearch simFn now st q k = Except.ok res) ∧
    (∀ (vw kw : α) (st : RetrieverState α),
      (adjust_retrieval_weights vw kw st).vector_weight = vw ∧
      (adjust_retrieval_weights vw kw st).keyword_weight = kw) ∧
    (∀ (numRepr : α → String) vectorSearch simFn (now : α) (st : RetrieverState α)
       (q : String) (k : Nat),
      vectorSearch q (k * 2) = none → simFn q = none →
      (cache_get (paramsRepr numRepr) now q
          ⟨st.vector_weight, st.keyword_weight, k⟩ st.cache).1 = none →
      ∃ st', retrieve numRepr vectorSearch simFn now st q k
        = Except.ok ([], st')) := by
  refine ⟨fun _ _ _ _ _ _ _ => ⟨_, rfl⟩, fun vw kw st => ⟨rfl, rfl⟩, ?_⟩
  intro numRepr vs sf now st q k hvs hsf hmiss
  have hv : vector_retrieval vs q (k * 2) = ([] : List (α × DocInfo)) := by
    rw [vector_retrieval, hvs]
  have hk : keyword_retrieval sf st.documents_cache st.index_built q (k * 2) = [] :=
    keyword_retrieval_simFn_none _ _ _ _ _ hsf
  have hbody : hybrid_retrieval numRepr vs sf now st q k
      = ([], { st with cache := (cache_set (paramsRepr numRepr) now q
          ⟨st.vector_weight, st.keyword_weight, k⟩ []
          (cache_get (paramsRepr numRepr) now q
            ⟨st.vector_weight, st.keyword_weight, k⟩ st.cache).2) }) := by
    rw [hybrid_retrieval]
    simp only [hmiss, hv, hk, fuse_results_nil]
  exact ⟨_, by rw [retrieve, hbody]⟩

/-- Witness for C5 (amended): both sources failing on a fresh cache yields
`.ok ([], _)`. -/
theorem claim_C5_no_error_surfaces_witness :
    ∃ st', retrieve (fun z : ℤ => toString z) (fun _ _ => none) (fun _ => none)
        (0 : ℤ) ⟨freshCache true 0 10, 1, 1, [], false⟩ "q" 2
      = Except.ok ([], st') :=
  (claim_C5_no_error_surfaces (α := ℤ)).2.2 (fun z => toString z)
    (fun _ _ => none) (fun _ => none) 0 ⟨freshCache true 0 10, 1, 1, [], false⟩
    "q" 2 rfl rfl (by decide)

/-- C6: two consecutive `retrieve` calls at the same time (so no expiry can
intervene) with the same `(query, config)`, an enabled cache with positive
capacity and (as in Python) unique cache keys, and no corpus change (the same
signal functions) return identical ordered result sequences; the second call
is answered from the cache (its internal `get` returns exactly the first
call's results) and records one more hit. -/
theorem claim_C6_repeat_retrieve_hits_cache {α : Type} [LinearOrderedCommRing α]
    (numRepr : α → String) (vectorSearch : String → Nat → Option (List (DocInfo × α)))
    (simFn : String → Option (List α)) (now : α) (st : RetrieverState α)
    (q : String) (k : Nat)
    (hen : st.cache.cache_enabled = true)
    (_hmax : 1 ≤ st.cache.cache_max_size)
    (hnd : (st.cache.entries.map Prod.fst).Nodup) :
    (hybrid_retrieval numRepr vectorSearch simFn now
        (hybrid_retrieval numRepr vectorSearch simFn now st q k).2 q k).1
      = (hybrid_retrieval numRepr vectorSearch simFn now st q k).1 ∧
    (hybrid_retrieval numRepr vectorSearch simFn now
        (hybrid_retrieval numRepr vectorSearch simFn now st q k).2 q k).2.cache.stats.hits
      = (hybrid_retrieval numRepr vectorSearch simFn now st q k).2.cache.stats.hits + 1 ∧
    (cache_get (paramsRepr numRepr) now q ⟨st.vector_weight, st.keyword_weight, k⟩
        (hybrid_retrieval numRepr vectorSearch simFn now st q k).2.cache).1
      = some (hybrid_retrieval numRepr vectorSearch simFn now st q k).1 := by
  cases hg : (cache_get (paramsRepr numRepr) now q
      ⟨st.vector_weight, st.keyword_weight, k⟩ st.cache).1 with
  | some res =>
    have h1 : hybrid_retrieval numRepr vectorSearch simFn now st q k
        = (res, { st with cache := (cache_get (paramsRepr numRepr) now q
            ⟨st.vector_weight, st.keyword_weight, k⟩ st.cache).2 }) := by
      rw [hybrid_retrieval]
      simp only [hg]
    have hrep := cache_get_replay_hit (paramsRepr numRepr) now q
      ⟨st.vector_weight, st.keyword_weight, k⟩ hen hnd hg
    have h2 : hybrid_retrieval numRepr vectorSearch simFn now
        (res, { st with cache := (cache_get (paramsRepr numRepr) now q
            ⟨st.vector_weight, st.keyword_weight, k⟩ st.cache).2 }).2 q k
        = (res, { st with cache := (cache_get (paramsRepr numRepr) now q
            ⟨st.vector_weight, st.keyword_weight, k⟩
            (cache_get (paramsRepr numRepr) now q
              ⟨st.vector_weight, st.keyword_weight, k⟩ st.cache).2).2 }) := by
      rw [hybrid_retrieval]
      simp only [hrep.1]
    rw [h1, h2]
    refine ⟨rfl, ?_, ?_⟩
    · simpa using hrep.2
    · simpa using hrep.1
  | none =>
    have h1 : hybrid_retrieval numRepr vectorSearch simFn now st q k
        = (fuse_results st.vector_weight st.keyword_weight k
            (vector_retrieval vectorSearch q (k * 2))
            (keyword_retrieval simFn st.documents_cache st.index_built q (k * 2)),
           { st with cache := (cache_set (paramsRepr numRepr) now q
              ⟨st.vector_weight, st.keyword_weight, k⟩
              (fuse_results st.vector_weight st.keyword_weight k
                (vector_retrieval vectorSearch q (k * 2))
                (keyword_retrieval simFn st.documents_cache st.index_built q (k * 2)))
              (cache_get (paramsRepr numRepr) now q
                ⟨st.vector_weight, st.keyword_weight, k⟩ st.cache).2) }) := by
      rw [hybrid_retrieval]
      simp only [hg]
    have hen2 : (cache_get (paramsRepr numRepr) now q
        ⟨st.vector_weight, st.keyword_weight, k⟩ st.cache).2.cache_enabled = true := by
      simp [hen]
    have hhit := cache_get_after_set (paramsRepr numRepr) now q
      ⟨st.vector_weight, st.keyword_weight, k⟩
      (fuse_results st.vector_weight st.keyword_weight k
        (vector_retrieval vectorSearch q (k * 2))
        (keyword_retrieval simFn st.documents_cache st.index_built q (k * 2)))
      hen2
    rw [h1]
    have h2 : hybrid_retrieval numRepr vectorSearch simFn now
        (fuse_results st.vector_weight st.keyword_weight k
            (vector_retrieval vectorSearch q (k * 2))
            (keyword_retrieval simFn st.documents_cache st.index_built q (k * 2)),
          { st with cache := (cache_set (paramsRepr numRepr) now q
              ⟨st.vector_weight, st.keyword_weight, k⟩
              (fuse_results st.vector_weight st.keyword_weight k
                (vector_retrieval vectorSearch q (k * 2))
                (keyword_retrieval simFn st.documents_cache st.index_built q (k * 2)))
              (cache_get (paramsRepr numRepr) now q
                ⟨st.vector_weight, st.keyword_weight, k⟩ st.cache).2) }).2 q k
        = (fuse_results st.vector_weight st.keyword_weight k
            (vector_retrieval vectorSearch q (k * 2))
            (keyword_retrieval simFn st.documents_cache st.index_built q (k * 2)),
           { st with cache := (cache_get (paramsRepr numRepr) now q
              ⟨st.vector_weight, st.keyword_weight, k⟩
              (cache_set (paramsRepr numRepr) now q
                ⟨st.vector_weight, st.keyword_weight, k⟩
                (fuse_results st.vector_weight st.keyword_weight k
                  (vector_retrieval vectorSearch q (k * 2))
                  (keyword_retrieval simFn st.documents_cache st.index_built q (k * 2)))
                (cache_get (paramsRepr numRepr) now q
                  ⟨st.vector_weight, st.keyword_weight, k⟩ st.cache).2)).2 }) := by
      rw [hybrid_retrieval]
      simp only [hhit.1]
    rw [h2]
    refine ⟨rfl, ?_, ?_⟩
    · simpa using hhit.2
    · simpa using hhit.1

/-- Witness for C6 over ℤ: an empty-corpus retriever with failing sources —
the second identical call is still served from the cache with equal results
and a hit. -/
theorem claim_C6_repeat_retrieve_hits_cache_witness :
    (hybrid_retrieval (fun z : ℤ => toString z) (fun _ _ => none) (fun _ => none) 0
        (hybrid_retrieval (fun z : ℤ => toString z) (fun _ _ => none) (fun _ => none) 0
          ⟨freshCache true 0 10, 1, 1, [], false⟩ "q" 2).2 "q" 2).1
      = (hybrid_retrieval (fun z : ℤ => toString z) (fun _ _ => none) (fun _ => none) 0
          ⟨freshCache true 0 10, 1, 1, [], false⟩ "q" 2).1 ∧
    (hybrid_retrieval (fun z : ℤ => toString z) (fun _ _ => none) (fun _ => none) 0
        (hybrid_retrieval (fun z : ℤ => toString z) (fun _ _ => none) (fun _ => none) 0
          ⟨freshCache true 0 10, 1, 1, [], false⟩ "q" 2).2 "q" 2).2.cache.stats.hits
      = (hybrid_retrieval (fun z : ℤ => toString z) (fun _ _ => none) (fun _ => none) 0
          ⟨freshCache true 0 10, 1, 1, [], false⟩ "q" 2).2.cache.stats.hits + 1 :=
  ⟨(claim_C6_repeat_retrieve_hits_cache (fun z : ℤ => toString z) (fun _ _ => none)
      (fun _ => none) 0 ⟨freshCache true 0 10, 1, 1, [], false⟩ "q" 2
      (by decide) (by decide) (by decide)).1,
   (claim_C6_repeat_retrieve_hits_cache (fun z : ℤ => toString z) (fun _ _ => none)
      (fun _ => none) 0 ⟨freshCache true 0 10, 1, 1, [], false⟩ "q" 2
      (by decide) (by decide) (by decide)).2.1⟩

section FusionLemmas

variable {α : Type} [LinearOrderedCommRing α]

theorem dictGet_bumpScore_self (k : String) (v : α) (l : List (String × α)) :
    dictGet k (bumpScore k v l) = some ((dictGet k l).getD 0 + v) := by
  induction l with
  | nil => simp [bumpScore, dictGet]
  | cons kv rest ih =>
    cases kv with
    | mk k' v' =>
      by_cases h : k' = k
      · simp [bumpScore, dictGet, h]
      · simp [bumpScore, dictGet, h, ih]

theorem dictGet_bumpScore_ne {k k' : String} (h : k ≠ k') (v : α)
    (l : List (String × α)) : dictGet k' (bumpScore k v l) = dictGet k' l := by
  induction l with
  | nil => simp [bumpScore, dictGet, h]
  | cons kv rest ih =>
    cases kv with
    | mk ka va =>
      by_cases hk : ka = k
      · subst hk
        simp [bumpScore, dictGet, h]
      · simp [bumpScore, dictGet, hk, ih]

theorem dictGet_fold_bump_not_mem (w : α) (l : List (α × DocInfo))
    (acc : List (String × α)) (k : String)
    (h : ∀ sr ∈ l, sr.2.content ≠ k) :
    dictGet k (l.foldl (fun a sr => bumpScore sr.2.content (sr.1 * w) a) acc)
      = dictGet k acc := by
  induction l generalizing acc with
  | nil => rfl
  | cons sr rest ih =>
    rw [List.foldl_cons, ih _ (fun x hx => h x (List.mem_cons_of_mem sr hx)),
      dictGet_bumpScore_ne (h sr (List.mem_cons_self sr rest)) _ _]

theorem dictGet_fold_bump (w : α) (l : List (α × DocInfo))
    (acc : List (String × α)) (k : String)
    (hnd : (l.map (fun sr => sr.2.content)).Nodup) :
    dictGet k (l.foldl (fun a sr => bumpScore sr.2.content (sr.1 * w) a) acc)
      = (match l.find? (fun sr => sr.2.content == k) with
         | some sr => some ((dictGet k acc).getD 0 + sr.1 * w)
         | none => dictGet k acc) := by
  induction l generalizing acc with
  | nil => rfl
  | cons sr rest ih =>
    rw [List.map_cons, List.nodup_cons] at hnd
    rw [List.foldl_cons]
    by_cases hc : sr.2.content = k
    · have hrest : ∀ x ∈ rest, x.2.content ≠ k := by
        intro x hx he
        exact hnd.1 (by
          rw [hc, ← he]
          exact List.mem_map_of_mem (fun sr => sr.2.content) hx)
      rw [dictGet_fold_bump_not_mem w rest _ k hrest, hc,
        dictGet_bumpScore_self]
      have hfind : (sr :: rest).find? (fun x => x.2.content == k) = some sr :=
        List.find?_cons_of_pos _ (by simpa using hc)
      rw [hfind]
    · have hfind : (sr :: rest).find? (fun x => x.2.content == k)
          = rest.find? (fun x => x.2.content == k) :=
        List.find?_cons_of_neg _ (by simpa using hc)
      rw [hfind, ih _ hnd.2, dictGet_bumpScore_ne hc]

theorem dictGet_combineResults (vw kw : α) (vres kres : List (α × DocInfo))
    (k : String)
    (hv : (vres.map (fun sr => sr.2.content)).Nodup)
    (hk : (kres.map (fun sr => sr.2.content)).Nodup) :
    dictGet k (combineResults vw kw vres kres)
      = if (vres.find? (fun sr => sr.2.content == k)).isSome ∨
           (kres.find? (fun sr => sr.2.content == k)).isSome
        then some (signalScore vres k * vw + signalScore kres k * kw)
        else none := by
  rw [combineResults]
  rw [dictGet_fold_bump kw kres _ k hk]
  rw [dictGet_fold_bump vw vres _ k hv]
  cases hvf : vres.find? (fun sr => sr.2.content == k) with
  | none =>
    cases hkf : kres.find? (fun sr => sr.2.content == k) with
    | none => simp [dictGet, hvf, hkf]
    | some sk => simp [dictGet, signalScore, hvf, hkf]
  | some sv =>
    cases hkf : kres.find? (fun sr => sr.2.content == k) with
    | none => simp [dictGet, signalScore, hvf, hkf]
    | some sk => simp [dictGet, signalScore, hvf, hkf]

theorem bumpScore_keys (k : String) (v : α) (l : List (String × α)) :
    (bumpScore k v l).map Prod.fst
      = if k ∈ l.map Prod.fst then l.map Prod.fst else l.map Prod.fst ++ [k] := by
  induction l with
  | nil => simp [bumpScore]
  | cons kv rest ih =>
    cases kv with
    | mk ka va =>
      by_cases h : ka = k
      · simp [bumpScore, h]
      · have hne : ¬ k = ka := fun he => h he.symm
        by_cases hm : k ∈ rest.map Prod.fst
        · simp [bumpScore, h, ih, hm, hne]
        · simp [bumpScore, h, ih, hm, hne]

theorem nodup_keys_bumpScore (k : String) (v : α) {l : List (String × α)}
    (h : (l.map Prod.fst).Nodup) : ((bumpScore k v l).map Prod.fst).Nodup := by
  rw [bumpScore_keys]
  split
  · exact h
  · rename_i hm
    simp [List.nodup_append, h, hm]

theorem nodup_keys_fold_bump (w : α) (l : List (α × DocInfo))
    {acc : List (String × α)} (h : (acc.map Prod.fst).Nodup) :
    ((l.foldl (fun a sr => bumpScore sr.2.content (sr.1 * w) a) acc).map
      Prod.fst).Nodup := by
  induction l generalizing acc with
  | nil => exact h
  | cons sr rest ih => exact ih (nodup_keys_bumpScore _ _ h)

theorem nodup_keys_combineResults (vw kw : α) (vres kres : List (α × DocInfo)) :
    ((combineResults vw kw vres kres).map Prod.fst).Nodup := by
  rw [combineResults]
  exact nodup_keys_fold_bump kw kres (nodup_keys_fold_bump vw vres (by simp))

end FusionLemmas

section MetaLemmas

variable {α : Type}

/-- Values stored in `result_metadata` are keyed by their own content. -/
def MetaKeyed (m : List (String × DocInfo)) : Prop :=
  ∀ (k : String) (d : DocInfo), dictGet k m = some d → d.content = k

theorem metaKeyed_dictSet {m : List (String × DocInfo)} (d : DocInfo)
    (hm : MetaKeyed m) : MetaKeyed (dictSet d.content d m) := by
  intro k d' hget
  by_cases hk : d.content = k
  · rw [hk, dictGet_dictSet_self] at hget
    · cases hget
      exact hk
  · rw [dictGet_dictSet_ne hk] at hget
    exact hm k d' hget

theorem metaKeyed_fold1 (l : List (α × DocInfo)) :
    ∀ m : List (String × DocInfo), MetaKeyed m →
      MetaKeyed (l.foldl (fun a sr => dictSet sr.2.content sr.2 a) m) := by
  induction l with
  | nil => exact fun m hm => hm
  | cons sr rest ih =>
    intro m hm
    exact ih _ (metaKeyed_dictSet sr.2 hm)

theorem metaKeyed_fold2 (l : List (α × DocInfo)) :
    ∀ m : List (String × DocInfo), MetaKeyed m →
      MetaKeyed (l.foldl
        (fun a sr => if (dictGet sr.2.content a).isSome then a
                     else dictSet sr.2.content sr.2 a) m) := by
  induction l with
  | nil => exact fun m hm => hm
  | cons sr rest ih =>
    intro m hm
    apply ih
    show MetaKeyed (if (dictGet sr.2.content m).isSome = true then m
                    else dictSet sr.2.content sr.2 m)
    split
    · exact hm
    · exact metaKeyed_dictSet sr.2 hm

theorem metaKeyed_buildMeta (vres kres : List (α × DocInfo)) :
    MetaKeyed (buildMeta vres kres) := by
  rw [buildMeta]
  exact metaKeyed_fold2 kres _ (metaKeyed_fold1 vres [] (fun k d h => by simp [dictGet] at h))

end MetaLemmas

/-- C1: every result in the fused output carries the linear-combination
score `vectorWeight * vectorScore + keywordWeight * keywordScore`, where a
passage absent from one signal's list contributes 0 for that signal (it is
not excluded); in particular, a passage found by only one signal gets that
signal's weight times its score.  Assumes (as the notion "its signal score"
does) that each signal list mentions each content at most once. -/
theorem claim_C1_fused_score_is_weighted_sum {α : Type} [LinearOrderedCommRing α]
    (vw kw : α) (top_k : Nat) (vres kres : List (α × DocInfo))
    (hv : (vres.map (fun sr => sr.2.content)).Nodup)
    (hk : (kres.map (fun sr => sr.2.content)).Nodup)
    (d : RetrievedDoc α) (hd : d ∈ fuse_results vw kw top_k vres kres) :
    d.score = vw * signalScore vres d.content + kw * signalScore kres d.content := by
  rw [fuse_results] at hd
  rcases List.mem_filterMap.mp hd with ⟨ks, hks, hmap⟩
  cases hmeta : dictGet ks.1 (buildMeta vres kres) with
  | none => rw [hmeta] at hmap; cases hmap
  | some d0 =>
    rw [hmeta] at hmap
    have hd0 : d = ⟨d0.content, d0.metadata, ks.2⟩ := by
      cases hmap
      rfl
    have hcontent : d0.content = ks.1 := metaKeyed_buildMeta vres kres ks.1 d0 hmeta
    have hmemc : ks ∈ combineResults vw kw vres kres := by
      have h1 : ks ∈ isort (fun a b : String × α => decide (b.2 ≤ a.2))
          (combineResults vw kw vres kres) :=
        (List.take_sublist _ _).mem hks
      exact (mem_isort _ _ ks).mp h1
    have hlook : dictGet ks.1 (combineResults vw kw vres kres) = some ks.2 := by
      rcases ks with ⟨kk, kscore⟩
      exact dictGet_of_mem (nodup_keys_combineResults vw kw vres kres) hmemc
    rw [dictGet_combineResults vw kw vres kres ks.1 hv hk] at hlook
    by_cases hex : (vres.find? (fun sr => sr.2.content == ks.1)).isSome ∨
        (kres.find? (fun sr => sr.2.content == ks.1)).isSome
    · rw [if_pos hex] at hlook
      have hscore : signalScore vres ks.1 * vw + signalScore kres ks.1 * kw = ks.2 :=
        Option.some.inj hlook
      rw [hd0]
      simp only [hcontent]
      rw [← hscore]
      ring
    · rw [if_neg hex] at hlook
      exact Option.noConfusion hlook

/-- Witness for C1 over ℤ: content `"a"` appears in both lists, `"b"` only in
the keyword list. -/
theorem claim_C1_fused_score_is_weighted_sum_witness :
    ((⟨"a", [("s", "m")], 31⟩ : RetrievedDoc ℤ)
        ∈ fuse_results (5 : ℤ) 7 3 [(2, ⟨"a", [("s", "m")]⟩)]
            [(3, ⟨"a", []⟩), (1, ⟨"b", []⟩)]) ∧
    (⟨"a", [("s", "m")], 31⟩ : RetrievedDoc ℤ).score
      = 5 * signalScore [((2 : ℤ), ⟨"a", [("s", "m")]⟩)] "a"
        + 7 * signalScore [((3 : ℤ), ⟨"a", []⟩), (1, ⟨"b", []⟩)] "a" :=
  ⟨by decide,
   claim_C1_fused_score_is_weighted_sum (5 : ℤ) 7 3
     [(2, ⟨"a", [("s", "m")]⟩)] [(3, ⟨"a", []⟩), (1, ⟨"b", []⟩)]
     (by decide) (by decide) ⟨"a", [("s", "m")], 31⟩ (by decide)⟩

section ArgsortLemmas

variable {α : Type} [LinearOrderedCommRing α]

/-- The comparison `argsortAsc` sorts by: ascending similarity, ties by
ascending index (the stable determinization of `numpy.argsort`). -/
def ascLe (s : Nat → α) (i j : Nat) : Bool :=
  decide (s i < s j) || (decide (s i = s j) && decide (i ≤ j))

/-- Descending similarity, ties by descending index: the order of
`argsort()[-k:][::-1]`. -/
def descLe (s : Nat → α) (i j : Nat) : Bool :=
  decide (s j < s i) || (decide (s i = s j) && decide (j ≤ i))

/-- The strict total order underlying `descLe` on distinct indices. -/
def descStrict (s : Nat → α) (i j : Nat) : Prop :=
  s j < s i ∨ (s i = s j ∧ j < i)

theorem ascLe_iff (s : Nat → α) (i j : Nat) :
    ascLe s i j = true ↔ (s i < s j ∨ (s i = s j ∧ i ≤ j)) := by
  simp [ascLe, Bool.or_eq_true, Bool.and_eq_true, decide_eq_true_eq]

theorem descLe_iff (s : Nat → α) (i j : Nat) :
    descLe s i j = true ↔ (s j < s i ∨ (s i = s j ∧ j ≤ i)) := by
  simp [descLe, Bool.or_eq_true, Bool.and_eq_true, decide_eq_true_eq]

theorem ascLe_total (s : Nat → α) (i j : Nat) :
    ascLe s i j = true ∨ ascLe s j i = true := by
  rw [ascLe_iff, ascLe_iff]
  rcases lt_trichotomy (s i) (s j) with h | h | h
  · exact Or.inl (Or.inl h)
  · rcases Nat.le_total i j with hij | hij
    · exact Or.inl (Or.inr ⟨h, hij⟩)
    · exact Or.inr (Or.inr ⟨h.symm, hij⟩)
  · exact Or.inr (Or.inl h)

theorem ascLe_trans (s : Nat → α) (a b c : Nat)
    (hab : ascLe s a b = true) (hbc : ascLe s b c = true) : ascLe s a c = true := by
  rw [ascLe_iff] at hab hbc ⊢
  rcases hab with h1 | ⟨he1, hi1⟩ <;> rcases hbc with h2 | ⟨he2, hi2⟩
  · exact Or.inl (lt_trans h1 h2)
  · exact Or.inl (he2 ▸ h1)
  · exact Or.inl (by rw [he1]; exact h2)
  · exact Or.inr ⟨he1.trans he2, le_trans hi1 hi2⟩

theorem descLe_total (s : Nat → α) (i j : Nat) :
    descLe s i j = true ∨ descLe s j i = true := by
  rw [descLe_iff, descLe_iff]
  rcases lt_trichotomy (s i) (s j) with h | h | h
  · exact Or.inr (Or.inl h)
  · rcases Nat.le_total i j with hij | hij
    · exact Or.inr (Or.inr ⟨h.symm, hij⟩)
    · exact Or.inl (Or.inr ⟨h, hij⟩)
  · exact Or.inl (Or.inl h)

theorem descLe_trans (s : Nat → α) (a b c : Nat)
    (hab : descLe s a b = true) (hbc : descLe s b c = true) : descLe s a c = true := by
  rw [descLe_iff] at hab hbc ⊢
  rcases hab with h1 | ⟨he1, hi1⟩ <;> rcases hbc with h2 | ⟨he2, hi2⟩
  · exact Or.inl (lt_trans h2 h1)
  · exact Or.inl (by rw [← he2]; exact h1)
  · exact Or.inl (by rw [he1]; exact h2)
  · exact Or.inr ⟨he1.trans he2, le_trans hi2 hi1⟩

theorem isAntisymm_descStrict (s : Nat → α) : IsAntisymm Nat (descStrict s) := by
  refine ⟨fun a b hab hba => ?_⟩
  rcases hab with h1 | ⟨he1, h1⟩ <;> rcases hba with h2 | ⟨he2, h2⟩
  · exact absurd h2 (lt_asymm h1)
  · exact absurd h1 (by rw [he2]; exact lt_irrefl _)
  · exact absurd h2 (by rw [he1]; exact lt_irrefl _)
  · omega

theorem sorted_isort_descLe (s : Nat → α) (n : Nat) :
    (isort (descLe s) (List.range n)).Pairwise (descStrict s) := by
  have hp := pairwise_isort (descLe_total s) (descLe_trans s) (List.range n)
  have hnd : (isort (descLe s) (List.range n)).Nodup :=
    (isort_perm _ _).nodup_iff.mpr (List.nodup_range n)
  refine (hp.and hnd).imp ?_
  rintro a b ⟨hle, hne⟩
  rw [descLe_iff] at hle
  rcases hle with h | ⟨he, hj⟩
  · exact Or.inl h
  · exact Or.inr ⟨he, Nat.lt_of_le_of_ne hj (fun hj2 => hne hj2.symm)⟩

theorem sorted_reverse_isort_ascLe (s : Nat → α) (n : Nat) :
    (isort (ascLe s) (List.range n)).reverse.Pairwise (descStrict s) := by
  rw [List.pairwise_reverse]
  have hp := pairwise_isort (ascLe_total s) (ascLe_trans s) (List.range n)
  have hnd : (isort (ascLe s) (List.range n)).Nodup :=
    (isort_perm _ _).nodup_iff.mpr (List.nodup_range n)
  refine (hp.and hnd).imp ?_
  rintro a b ⟨hle, hne⟩
  rw [ascLe_iff] at hle
  rcases hle with h | ⟨he, hj⟩
  · exact Or.inl h
  · exact Or.inr ⟨he.symm, Nat.lt_of_le_of_ne hj hne⟩

/-- Reversing the (stable) ascending argsort gives exactly the sort by
descending similarity with ties by descending index. -/
theorem argsortAsc_reverse_eq (sims : List α) :
    (argsortAsc sims).reverse
      = isort (descLe (fun i => sims.getD i 0)) (List.range sims.length) := by
  haveI := isAntisymm_descStrict (fun i => sims.getD i 0)
  exact List.eq_of_perm_of_sorted
    (((List.reverse_perm _).trans (isort_perm _ _)).trans
      (isort_perm (descLe (fun i => sims.getD i 0)) (List.range sims.length)).symm)
    (sorted_reverse_isort_ascLe (fun i => sims.getD i 0) sims.length)
    (sorted_isort_descLe (fun i => sims.getD i 0) sims.length)

theorem reverse_drop_eq_take_reverse {γ : Type} (l : List γ) (m : Nat) :
    (l.drop m).reverse = l.reverse.take (l.length - m) := by
  have h : l.reverse = (l.drop m).reverse ++ (l.take m).reverse := by
    rw [← List.reverse_append, List.take_append_drop]
  rw [h, List.take_left' (by rw [List.length_reverse, List.length_drop])]

theorem pyTailSlice_reverse {γ : Type} (l : List γ) (k : Nat) (hk : k ≠ 0) :
    (pyTailSlice l k).reverse = l.reverse.take k := by
  rw [pyTailSlice, if_neg hk, reverse_drop_eq_take_reverse]
  by_cases hkl : k ≤ l.length
  · have h1 : l.length - (l.length - k) = k := by omega
    rw [h1]
  · have h1 : l.length - (l.length - k) = l.length := by omega
    rw [h1, List.take_of_length_le (by rw [List.length_reverse]),
      List.take_of_length_le (by rw [List.length_reverse]; omega)]

end ArgsortLemmas

/-- C7 is refuted on its tie-breaking conjunct: `argsort()[-k:][::-1]`
reverses an ascending sort, so passages with equal similarity come out in
reverse corpus insertion order, not insertion order.  With two passages of
equal positive similarity the code returns `[doc1, doc0]` while the claim's
insertion-order spec demands `[doc0, doc1]`. -/
theorem claim_C7_counterexample :
    keyword_retrieval (fun _ => some [(1 : ℤ), 1]) [⟨"d0", []⟩, ⟨"d1", []⟩]
        true "q" 2
      = [((1 : ℤ), ⟨"d1", []⟩), (1, ⟨"d0", []⟩)] ∧
    keywordSpecClaim [⟨"d0", []⟩, ⟨"d1", []⟩] [(1 : ℤ), 1] 2
      = [((1 : ℤ), ⟨"d0", []⟩), (1, ⟨"d1", []⟩)] ∧
    keyword_retrieval (fun _ => some [(1 : ℤ), 1]) [⟨"d0", []⟩, ⟨"d1", []⟩]
        true "q" 2
      ≠ keywordSpecClaim [⟨"d0", []⟩, ⟨"d1", []⟩] [(1 : ℤ), 1] 2 := by
  refine ⟨by decide, by decide, by decide⟩

/-- C7 (amended): for a built, non-empty index, a similarity row computed for
the query, and positive `topK`, keyword retrieval returns exactly the `topK`
highest-scoring passages restricted to score > 0, in descending score order
with ties broken by reverse corpus insertion order (the spec-side ordering
`keywordSpecAmended`); and it returns the empty sequence whenever the index
is unbuilt or the corpus is empty.  (numpy's default argsort leaves the
relative order of equal values unspecified; the model fixes it to the stable
order, under which the reversal makes ties come out index-descending.) -/
theorem claim_C7_keyword_topk_order {α : Type} [LinearOrderedCommRing α]
    (simFn : String → Option (List α)) (docs : List DocInfo) (q : String)
    (top_k : Nat) (sims : List α)
    (hs : simFn q = some sims) (_hlen : sims.length = docs.length)
    (hne : docs ≠ []) (hk : top_k ≠ 0) :
    keyword_retrieval simFn docs true q top_k = keywordSpecAmended docs sims top_k ∧
    (∀ (sf : String → Option (List α)) (ds : List DocInfo) (k' : Nat),
      keyword_retrieval sf ds false q k' = []) ∧
    (∀ (sf : String → Option (List α)) (k' : Nat),
      keyword_retrieval sf [] true q k' = []) := by
  refine ⟨?_, ?_, ?_⟩
  · rw [keyword_retrieval, keywordSpecAmended]
    rw [if_neg (by simp [List.isEmpty_eq_false.mpr hne])]
    simp only [hs]
    rw [pyTailSlice_reverse _ _ hk, argsortAsc_reverse_eq]
    rfl
  · intro sf ds k'
    rw [keyword_retrieval]
    simp
  · intro sf k'
    rfl

/-- Witness for C7 (amended) over ℤ: three documents with distinct scores. -/
theorem claim_C7_keyword_topk_order_witness :
    keyword_retrieval (fun _ => some [(1 : ℤ), 3, 2])
        [⟨"d0", []⟩, ⟨"d1", []⟩, ⟨"d2", []⟩] true "q" 2
      = keywordSpecAmended [⟨"d0", []⟩, ⟨"d1", []⟩, ⟨"d2", []⟩]
          [(1 : ℤ), 3, 2] 2 :=
  (claim_C7_keyword_topk_order (fun _ => some [(1 : ℤ), 3, 2])
      [⟨"d0", []⟩, ⟨"d1", []⟩, ⟨"d2", []⟩] "q" 2 [(1 : ℤ), 3, 2]
      rfl (by decide) (by decide) (by decide)).1

section CacheKeyLemmas

/-- Characters that can appear in a numeric value rendering (digits, sign,
point, exponent, rational slash).  What matters for key parsing is that none
of the delimiter characters of the params dict rendering (space, comma,
quote, braces, underscore-before-brace) is numeric. -/
def isNumChar (c : Char) : Bool :=
  c.isDigit || c == '-' || c == '/' || c == '.' || c == 'e'

/-- A string all of whose characters are numeric-rendering characters. -/
def IsNumericStr (s : String) : Prop := ∀ c ∈ s.data, isNumChar c = true

instance (s : String) : Decidable (IsNumericStr s) :=
  inferInstanceAs (Decidable (∀ c ∈ s.data, isNumChar c = true))

/-- The fixed prefix `{'vector_weight': ` of the params rendering. -/
def preV : List Char := "\x7b\x27vector_weight\x27: ".data

/-- The fixed separator `, 'keyword_weight': `. -/
def preK : List Char := ", \x27keyword_weight\x27: ".data

/-- The fixed separator `, 'top_k': `. -/
def preT : List Char := ", \x27top_k\x27: ".data

theorem generate_cache_key_data {α : Type} (numRepr : α → String) (q : String)
    (p : RetrievalParams α) :
    (generate_cache_key (paramsRepr numRepr) q p).data
      = q.data ++ '_' :: (preV ++ (numRepr p.vector_weight).data ++ preK ++
          (numRepr p.keyword_weight).data ++ preT ++ (toString p.top_k).data ++
          ['\x7d']) := by
  simp [generate_cache_key, paramsRepr, String.data_append, preV, preK, preT]

/-- Two maximal runs of numeric characters followed by the same non-numeric
delimiter shape must coincide. -/
theorem numRun_inj : ∀ (l1 l2 r1 r2 : List Char) (d1 d2 : Char),
    (∀ c ∈ l1, isNumChar c = true) → (∀ c ∈ l2, isNumChar c = true) →
    isNumChar d1 = false → isNumChar d2 = false →
    l1 ++ d1 :: r1 = l2 ++ d2 :: r2 → l1 = l2 ∧ d1 = d2 ∧ r1 = r2 := by
  intro l1
  induction l1 with
  | nil =>
    intro l2 r1 r2 d1 d2 h1 h2 hd1 hd2 h
    cases l2 with
    | nil =>
      simp only [List.nil_append] at h
      rcases List.cons.inj h with ⟨hd, hr⟩
      exact ⟨rfl, hd, hr⟩
    | cons x l2x =>
      simp only [List.nil_append, List.cons_append] at h
      rcases List.cons.inj h with ⟨hx, -⟩
      have hnum : isNumChar d1 = true := by
        rw [hx]
        exact h2 x (List.mem_cons_self x l2x)
      rw [hd1] at hnum
      exact Bool.noConfusion hnum
  | cons y l1x ih =>
    intro l2 r1 r2 d1 d2 h1 h2 hd1 hd2 h
    cases l2 with
    | nil =>
      simp only [List.nil_append, List.cons_append] at h
      rcases List.cons.inj h with ⟨hy, -⟩
      have hnum : isNumChar d2 = true := by
        rw [← hy]
        exact h1 y (List.mem_cons_self y l1x)
      rw [hd2] at hnum
      exact Bool.noConfusion hnum
    | cons x l2x =>
      simp only [List.cons_append] at h
      rcases List.cons.inj h with ⟨hyx, htail⟩
      obtain ⟨he1, he2, he3⟩ := ih l2x r1 r2 d1 d2
        (fun c hc => h1 c (List.mem_cons_of_mem y hc))
        (fun c hc => h2 c (List.mem_cons_of_mem x hc)) hd1 hd2 htail
      exact ⟨by rw [hyx, he1], he2, he3⟩

theorem keyChars_inj (q1 a1 b1 c1 q2 a2 b2 c2 : List Char)
    (ha1 : ∀ ch ∈ a1, isNumChar ch = true) (hb1 : ∀ ch ∈ b1, isNumChar ch = true)
    (hc1 : ∀ ch ∈ c1, isNumChar ch = true)
    (ha2 : ∀ ch ∈ a2, isNumChar ch = true) (hb2 : ∀ ch ∈ b2, isNumChar ch = true)
    (hc2 : ∀ ch ∈ c2, isNumChar ch = true)
    (h : q1 ++ '_' :: (preV ++ a1 ++ preK ++ b1 ++ preT ++ c1 ++ ['\x7d'])
       = q2 ++ '_' :: (preV ++ a2 ++ preK ++ b2 ++ preT ++ c2 ++ ['\x7d'])) :
    q1 = q2 ∧ a1 = a2 ∧ b1 = b2 ∧ c1 = c2 := by
  have h0 := congrArg List.reverse h
  simp only [List.reverse_append, List.reverse_cons, List.reverse_singleton,
    List.append_assoc, List.singleton_append, List.cons_append] at h0
  rw [(by decide : preT.reverse = ' ' :: preT.reverse.tail),
    (by decide : preK.reverse = ' ' :: preK.reverse.tail),
    (by decide : preV.reverse = ' ' :: preV.reverse.tail)] at h0
  simp only [List.cons_append, List.append_assoc] at h0
  rcases List.cons.inj h0 with ⟨-, h1⟩
  obtain ⟨hcc, -, h2⟩ := numRun_inj c1.reverse c2.reverse _ _ ' ' ' '
    (fun ch hch => hc1 ch (List.mem_reverse.mp hch))
    (fun ch hch => hc2 ch (List.mem_reverse.mp hch)) (by decide) (by decide) h1
  have h3 := List.append_cancel_left h2
  obtain ⟨hbb, -, h4⟩ := numRun_inj b1.reverse b2.reverse _ _ ' ' ' '
    (fun ch hch => hb1 ch (List.mem_reverse.mp hch))
    (fun ch hch => hb2 ch (List.mem_reverse.mp hch)) (by decide) (by decide) h3
  have h5 := List.append_cancel_left h4
  obtain ⟨haa, -, h6⟩ := numRun_inj a1.reverse a2.reverse _ _ ' ' ' '
    (fun ch hch => ha1 ch (List.mem_reverse.mp hch))
    (fun ch hch => ha2 ch (List.mem_reverse.mp hch)) (by decide) (by decide) h5
  have h7 := List.append_cancel_left h6
  rcases List.cons.inj h7 with ⟨-, h8⟩
  exact ⟨List.reverse_injective h8, List.reverse_injective haa,
    List.reverse_injective hbb, List.reverse_injective hcc⟩

/-- C8: the cache key is a deterministic function of `(query, config)` (equal
pairs give equal keys by construction), and the key construction does not
alias: although `key_data` concatenates query and params with `_`, the
`str()` of the fixed-shape params dict brackets the parameter values between
non-numeric delimiters, so distinct `(query, config)` pairs produce distinct
`key_data` strings — a query embedding the separator or parameter text, or a
config differing only in `topK`, cannot collide.  Hypotheses: the numeric
renderings consist of numeric characters and are injective at the values
involved (true of Python's float/int `str()`).  md5 hashing of `key_data` is
deterministic, so key equality is modelled at the `key_data` level (md5's own
astronomically unlikely collisions are the spec's acknowledged exception). -/
theorem claim_C8_cache_key_injective {α : Type} (numRepr : α → String)
    (q1 q2 : String) (p1 p2 : RetrievalParams α)
    (ha1 : IsNumericStr (numRepr p1.vector_weight))
    (hb1 : IsNumericStr (numRepr p1.keyword_weight))
    (hc1 : IsNumericStr (toString p1.top_k))
    (ha2 : IsNumericStr (numRepr p2.vector_weight))
    (hb2 : IsNumericStr (numRepr p2.keyword_weight))
    (hc2 : IsNumericStr (toString p2.top_k))
    (hinjv : numRepr p1.vector_weight = numRepr p2.vector_weight →
      p1.vector_weight = p2.vector_weight)
    (hinjk : numRepr p1.keyword_weight = numRepr p2.keyword_weight →
      p1.keyword_weight = p2.keyword_weight)
    (hinjt : toString p1.top_k = toString p2.top_k → p1.top_k = p2.top_k)
    (hkey : generate_cache_key (paramsRepr numRepr) q1 p1
          = generate_cache_key (paramsRepr numRepr) q2 p2) :
    q1 = q2 ∧ p1 = p2 := by
  have hdata := congrArg String.data hkey
  rw [generate_cache_key_data, generate_cache_key_data] at hdata
  obtain ⟨hq, ha, hb, hc⟩ := keyChars_inj q1.data (numRepr p1.vector_weight).data
    (numRepr p1.keyword_weight).data (toString p1.top_k).data
    q2.data (numRepr p2.vector_weight).data (numRepr p2.keyword_weight).data
    (toString p2.top_k).data ha1 hb1 hc1 ha2 hb2 hc2 hdata
  have hstr : ∀ s t : String, s.data = t.data → s = t := by
    intro s t hst
    cases s
    cases t
    exact congrArg String.mk hst
  refine ⟨hstr _ _ hq, ?_⟩
  have hv := hinjv (hstr _ _ ha)
  have hk := hinjk (hstr _ _ hb)
  have ht := hinjt (hstr _ _ hc)
  cases p1
  cases p2
  simp only at hv hk ht
  rw [hv, hk, ht]

/-- Witness for C8 at concrete inputs over ℤ. -/
theorem claim_C8_cache_key_injective_witness :
    ("hello" : String) = "hello" ∧
    (⟨3, -2, 5⟩ : RetrievalParams ℤ) = ⟨3, -2, 5⟩ :=
  claim_C8_cache_key_injective (fun z : ℤ => toString z) "hello" "hello"
    ⟨3, -2, 5⟩ ⟨3, -2, 5⟩ (by decide) (by decide) (by decide) (by decide)
    (by decide) (by decide) (fun _ => rfl) (fun _ => rfl) (fun _ => rfl) rfl

end CacheKeyLemmas

end ICS
